import Mathlib

/-!
Verification of the vertical-search-engine core: a shallow embedding of
`invertedindexer.py` (index construction, TF-IDF weighting, persistence)
and `doc_ranker.py` (query vector, cosine similarity, ranking), together
with proofs of the specified properties.

Python dicts are modelled as insertion-ordered association lists
(`List (κ × α)`); `defaultdict` access that materializes a default entry
appends the new key at the end, exactly as CPython does.  Floating point
numbers are modelled as real numbers, `math.log` as `Real.log`,
`math.sqrt` as `Real.sqrt`.  The NLTK pipeline (`word_tokenize`,
`PorterStemmer.stem`, the stopword set) is third-party code external to
the repository, so it is abstracted as an explicit parameter record
`NLP`; `str.isalnum` is modelled for ASCII text.
-/

namespace VSE

/-! ### Association-list model of Python dicts -/

section AList

variable {κ : Type} {α : Type} [DecidableEq κ]

/-- Lookup of a key in an insertion-ordered association list (Python `d[k]`
when the key is present, `d.get(k)` in general). -/
def alookup : List (κ × α) → κ → Option α
  | [], _ => none
  | e :: rest, k => if e.1 = k then some e.2 else alookup rest k

/-- `d.get(k, dflt)`: lookup with a default, never inserting. -/
def agetD (m : List (κ × α)) (k : κ) (d : α) : α := (alookup m k).getD d

/-- The keys of the dict, in insertion order. -/
def akeys (m : List (κ × α)) : List κ := m.map Prod.fst

/-- In-place update of the value stored at a key (`d[k] = f(d[k])` for a
present key); absent keys leave the dict unchanged (in Python a missing
key would raise `KeyError`; every call site below updates a present key). -/
def aupdate (m : List (κ × α)) (k : κ) (f : α → α) : List (κ × α) :=
  m.map fun e => if e.1 = k then (e.1, f e.2) else e

/-- `defaultdict` increment `d[k] += one`: a missing key is materialized at
the end of the insertion order with the default and then incremented. -/
def atally [Add α] (one : α) (m : List (κ × α)) (k : κ) : List (κ × α) :=
  if (alookup m k).isSome then aupdate m k (· + one) else m ++ [(k, one)]

/-- `defaultdict(list)` append `d[k].append(x)`: a missing key is
materialized at the end of the insertion order with the empty list. -/
def ddAppend (m : List (κ × List α)) (k : κ) (x : α) : List (κ × List α) :=
  if (alookup m k).isSome then aupdate m k (· ++ [x]) else m ++ [(k, [x])]

@[simp] theorem alookup_nil (k : κ) : alookup ([] : List (κ × α)) k = none := rfl

theorem alookup_cons (e : κ × α) (m : List (κ × α)) (k : κ) :
    alookup (e :: m) k = if e.1 = k then some e.2 else alookup m k := rfl

theorem alookup_append (m₁ m₂ : List (κ × α)) (k : κ) :
    alookup (m₁ ++ m₂) k = ((alookup m₁ k).orElse fun _ => alookup m₂ k) := by
  induction m₁ with
  | nil => simp [alookup]
  | cons e rest ih =>
      by_cases h : e.1 = k <;> simp [alookup_cons, h, ih, Option.orElse]

theorem alookup_isSome_iff_mem_akeys (m : List (κ × α)) (k : κ) :
    (alookup m k).isSome ↔ k ∈ akeys m := by
  induction m with
  | nil => simp [akeys]
  | cons e rest ih =>
      rw [alookup_cons]
      by_cases h : e.1 = k
      · simp [akeys, h]
      · rw [if_neg h]
        simp only [akeys, List.map_cons, List.mem_cons]
        rw [ih]
        constructor
        · intro hs; exact Or.inr hs
        · rintro (h1 | h2)
          · exact absurd h1.symm h
          · exact h2

theorem alookup_eq_none_iff (m : List (κ × α)) (k : κ) :
    alookup m k = none ↔ k ∉ akeys m := by
  rw [← alookup_isSome_iff_mem_akeys, Option.not_isSome_iff_eq_none]

theorem alookup_eq_some_of_mem {m : List (κ × α)} (hnd : (akeys m).Nodup)
    {k : κ} {v : α} (hm : (k, v) ∈ m) : alookup m k = some v := by
  induction m with
  | nil => simp at hm
  | cons e rest ih =>
      simp only [akeys, List.map_cons, List.nodup_cons] at hnd
      rcases List.mem_cons.mp hm with h | h
      · subst h; simp [alookup_cons]
      · have hk : e.1 ≠ k := by
          intro he
          exact hnd.1 (he ▸ (List.mem_map.mpr ⟨(k, v), h, rfl⟩))
        simp [alookup_cons, hk, ih hnd.2 h]

theorem mem_of_alookup_eq_some {m : List (κ × α)} {k : κ} {v : α}
    (h : alookup m k = some v) : (k, v) ∈ m := by
  induction m with
  | nil => simp [alookup] at h
  | cons e rest ih =>
      rw [alookup_cons] at h
      by_cases he : e.1 = k
      · rw [if_pos he] at h
        have hv : e.2 = v := by injection h
        exact List.mem_cons.mpr (Or.inl (by rw [← he, ← hv]))
      · rw [if_neg he] at h
        exact List.mem_cons_of_mem _ (ih h)

@[simp] theorem akeys_nil : akeys ([] : List (κ × α)) = [] := rfl

@[simp] theorem akeys_append (m₁ m₂ : List (κ × α)) :
    akeys (m₁ ++ m₂) = akeys m₁ ++ akeys m₂ := by simp [akeys]

@[simp] theorem akeys_aupdate (m : List (κ × α)) (k : κ) (f : α → α) :
    akeys (aupdate m k f) = akeys m := by
  induction m with
  | nil => rfl
  | cons e rest ih =>
      by_cases h : e.1 = k <;> simp [aupdate, akeys, h] at ih ⊢ <;> exact ih

theorem alookup_aupdate (m : List (κ × α)) (k : κ) (f : α → α) (k' : κ) :
    alookup (aupdate m k f) k' =
      if k' = k then (alookup m k').map f else alookup m k' := by
  induction m with
  | nil => by_cases h : k' = k <;> simp [aupdate, h]
  | cons e rest ih =>
      by_cases hek : e.1 = k
      · by_cases hek' : e.1 = k'
        · have hkk : k' = k := hek'.symm.trans hek
          simp [aupdate, alookup_cons, hek, hek', hkk]
        · simp only [aupdate, List.map_cons] at ih ⊢
          rw [if_pos hek]
          simp [alookup_cons, hek', ih]
      · by_cases hek' : e.1 = k'
        · have hkk : ¬ k' = k := fun h => hek (hek'.trans h)
          simp [aupdate, alookup_cons, hek, hek', hkk]
        · simp only [aupdate, List.map_cons] at ih ⊢
          rw [if_neg hek]
          simp [alookup_cons, hek', ih]

theorem akeys_atally [Add α] (one : α) (m : List (κ × α)) (k : κ) :
    akeys (atally one m k) = if k ∈ akeys m then akeys m else akeys m ++ [k] := by
  unfold atally
  by_cases h : (alookup m k).isSome
  · rw [if_pos h, akeys_aupdate, if_pos ((alookup_isSome_iff_mem_akeys m k).mp h)]
  · rw [if_neg h, if_neg (fun hm => h ((alookup_isSome_iff_mem_akeys m k).mpr hm))]
    simp [akeys]

theorem akeys_atally_nodup [Add α] (one : α) (m : List (κ × α)) (k : κ)
    (h : (akeys m).Nodup) : (akeys (atally one m k)).Nodup := by
  rw [akeys_atally]
  by_cases hk : k ∈ akeys m
  · rwa [if_pos hk]
  · rw [if_neg hk]
    simpa [List.nodup_append] using ⟨h, hk⟩

theorem akeys_ddAppend (m : List (κ × List α)) (k : κ) (x : α) :
    akeys (ddAppend m k x) = if k ∈ akeys m then akeys m else akeys m ++ [k] := by
  unfold ddAppend
  by_cases h : (alookup m k).isSome
  · rw [if_pos h, akeys_aupdate, if_pos ((alookup_isSome_iff_mem_akeys m k).mp h)]
  · rw [if_neg h, if_neg (fun hm => h ((alookup_isSome_iff_mem_akeys m k).mpr hm))]
    simp [akeys]

theorem akeys_ddAppend_nodup (m : List (κ × List α)) (k : κ) (x : α)
    (h : (akeys m).Nodup) : (akeys (ddAppend m k x)).Nodup := by
  rw [akeys_ddAppend]
  by_cases hk : k ∈ akeys m
  · rwa [if_pos hk]
  · rw [if_neg hk]
    simpa [List.nodup_append] using ⟨h, hk⟩

theorem alookup_ddAppend (m : List (κ × List α)) (k : κ) (x : α) (k' : κ) :
    alookup (ddAppend m k x) k' =
      if k' = k then some ((alookup m k).getD [] ++ [x]) else alookup m k' := by
  unfold ddAppend
  by_cases h : (alookup m k).isSome
  · obtain ⟨ps, hps⟩ := Option.isSome_iff_exists.mp h
    rw [if_pos h, alookup_aupdate]
    by_cases hk : k' = k
    · subst hk; simp [hps]
    · simp [hk]
  · have hnone : alookup m k = none := Option.not_isSome_iff_eq_none.mp h
    rw [if_neg h]
    by_cases hk : k' = k
    · subst hk
      rw [if_pos rfl, alookup_append, hnone]
      simp [alookup_cons]
    · rw [if_neg hk, alookup_append]
      rcases ho : alookup m k' with _ | v
      · simp [Option.orElse, alookup_cons, Ne.symm hk]
      · simp [Option.orElse]

theorem alookup_atally [Add α] (one : α) (m : List (κ × α)) (k k' : κ) :
    alookup (atally one m k) k' =
      if k' = k then
        some (match alookup m k with | some v => v + one | none => one)
      else alookup m k' := by
  unfold atally
  by_cases h : (alookup m k).isSome
  · obtain ⟨v, hv⟩ := Option.isSome_iff_exists.mp h
    rw [if_pos h, alookup_aupdate]
    by_cases hk : k' = k
    · subst hk; simp [hv]
    · simp [hk]
  · have hnone : alookup m k = none := Option.not_isSome_iff_eq_none.mp h
    rw [if_neg h]
    by_cases hk : k' = k
    · subst hk
      rw [if_pos rfl, alookup_append, hnone]
      simp [alookup_cons]
    · rw [if_neg hk, alookup_append]
      rcases ho : alookup m k' with _ | v
      · simp [Option.orElse, alookup_cons, Ne.symm hk]
      · simp [Option.orElse]

end AList



/-! ### Data model

`Document` mirrors the dict appended to `self.documents` in
`InvertedIndexer.build_index`; `RawRecord` is one JSON publication record,
every field optional (`pub.get(...)`), with `authors` a list of author
dicts whose `name` field may be missing (accessing a missing `name`
raises `KeyError` in the source). -/

structure Author where
  name : Option String
  url : Option String

structure RawRecord where
  title : Option String
  url : Option String
  date : Option String
  authors : Option (List Author)
  abstract : Option String

structure Document where
  id : Nat
  title : String
  url : String
  date : String
  authors : List Author
  abstract : String

/-- The mutable state of an `InvertedIndexer` object: the four containers
set up in `__init__`. -/
structure Indexer where
  inverted_index : List (String × List (Nat × ℝ))
  term_document_counts : List (String × Nat)
  document_vectors : List (Nat × List (String × ℝ))
  documents : List Document

/-- `InvertedIndexer.__init__`: all four containers start empty. -/
def initIndexer : Indexer := ⟨[], [], [], []⟩

/-! ### Normalization (`preprocess_text`)

`word_tokenize`, `PorterStemmer().stem` and `set(stopwords.words('english'))`
come from NLTK, which is not part of this repository, so they are passed
in as an abstract parameter record. -/

structure NLP where
  tokenize : String → List String
  stem : String → String
  isStopword : String → Bool

/-- `str.isalnum`, modelled for ASCII text: nonempty and every character
alphanumeric. -/
def pyIsAlnum (s : String) : Bool := !s.isEmpty && s.toList.all Char.isAlphanum

/-- `str.lower()`, modelled for ASCII text. -/
def pyLower (s : String) : String := String.mk (s.toList.map Char.toLower)

/-- `InvertedIndexer.preprocess_text`: lowercase, tokenize, keep only
alphanumeric tokens, stem every token not in the stopword set. -/
def preprocess_text (nlp : NLP) (text : String) : List String :=
  let tokens := nlp.tokenize (pyLower text)
  let tokens := tokens.filter pyIsAlnum
  (tokens.filter fun t => !nlp.isStopword t).map nlp.stem

/-! ### IDF and index construction -/

/-- `InvertedIndexer.compute_inverse_document_frequency`:
`log((len(documents) + 1) / (term_document_counts.get(term, 0) + 1)) + 1`. -/
noncomputable def compute_inverse_document_frequency (st : Indexer) (term : String) : ℝ :=
  Real.log (((st.documents.length : ℝ) + 1) /
    (((agetD st.term_document_counts term 0 : ℕ) : ℝ) + 1)) + 1

/-- `[a['name'] for a in pub.get('authors', [])]`: the first author dict
with no `name` key raises `KeyError`. -/
def authorNames : List Author → Except String (List String)
  | [] => Except.ok []
  | a :: rest =>
      match a.name with
      | none => Except.error "KeyError: name"
      | some n =>
          match authorNames rest with
          | Except.error e => Except.error e
          | Except.ok ns => Except.ok (n :: ns)

/-- `f"{pub.get('title','')} {pub.get('abstract','')} {authors_text}"`
with `authors_text = " ".join(names)`. -/
def combinedText (pub : RawRecord) (names : List String) : String :=
  pub.title.getD "" ++ " " ++ pub.abstract.getD "" ++ " " ++ String.intercalate " " names

/-- The per-document raw term counts: `term_counts[token] += 1` over the
token sequence, on a fresh `defaultdict(int)`. -/
def countTokens (tokens : List String) : List (String × Nat) :=
  tokens.foldl (atally 1) []

/-- The document dict appended to `self.documents` (all fields defaulted
when missing; `id` is the enumeration index). -/
def docOfRecord (doc_id : Nat) (pub : RawRecord) : Document :=
  ⟨doc_id, pub.title.getD "", pub.url.getD "", pub.date.getD "",
   pub.authors.getD [], pub.abstract.getD ""⟩

/-- The single loop over `term_counts.items()` building the provisional
TF-only document vector while appending `(doc_id, tf)` postings to the
inverted index, with `tf = 1 + math.log(count)`. -/
noncomputable def tfLoop (doc_id : Nat) (tcs : List (String × Nat))
    (inv : List (String × List (Nat × ℝ))) :
    List (String × List (Nat × ℝ)) × List (String × ℝ) :=
  tcs.foldl
    (fun acc e =>
      (ddAppend acc.1 e.1 (doc_id, 1 + Real.log (e.2 : ℝ)),
       acc.2 ++ [(e.1, 1 + Real.log (e.2 : ℝ))]))
    (inv, [])

/-- One iteration of the `for doc_id, pub in enumerate(publications)` loop
in `build_index`: combine the text fields, normalize, record the document,
bump the per-term document counts once per distinct token, and install the
TF-only vector and postings. -/
noncomputable def indexRecord (nlp : NLP) (st : Indexer) (doc_id : Nat) (pub : RawRecord) :
    Except String Indexer :=
  match authorNames (pub.authors.getD []) with
  | Except.error e => Except.error e
  | Except.ok names =>
      let tokens := preprocess_text nlp (combinedText pub names)
      let term_counts := countTokens tokens
      let p := tfLoop doc_id term_counts st.inverted_index
      Except.ok
        ⟨p.1,
         tokens.dedup.foldl (atally 1) st.term_document_counts,
         st.document_vectors ++ [(doc_id, p.2)],
         st.documents ++ [docOfRecord doc_id pub]⟩

/-- The whole enumeration loop, propagating the first raised exception. -/
noncomputable def indexLoop (nlp : NLP) : List (Nat × RawRecord) → Indexer → Except String Indexer
  | [], st => Except.ok st
  | e :: rest, st =>
      match indexRecord nlp st e.1 e.2 with
      | Except.error msg => Except.error msg
      | Except.ok st' => indexLoop nlp rest st'

/-- The second phase of `build_index` ("Convert TF -> TF-IDF"): for every
term of the inverted index, compute its IDF once and scale its postings
and the matching entries of the document vectors in place. -/
noncomputable def finalizeIndex (st : Indexer) : Indexer :=
  ⟨st.inverted_index.map fun e =>
      (e.1, e.2.map fun p => (p.1, p.2 * compute_inverse_document_frequency st e.1)),
   st.term_document_counts,
   st.inverted_index.foldl
     (fun dvs e =>
       e.2.foldl
         (fun dvs p =>
           aupdate dvs p.1 fun v =>
             aupdate v e.1 fun w => w * compute_inverse_document_frequency st e.1)
         dvs)
     st.document_vectors,
   st.documents⟩

/-- `InvertedIndexer.build_index` run on a freshly constructed indexer, as
the repository's entry points do: enumerate the decoded JSON records, then
convert TF to TF-IDF. -/
noncomputable def build_index (nlp : NLP) (publications : List RawRecord) :
    Except String Indexer :=
  match indexLoop nlp publications.enum initIndexer with
  | Except.error e => Except.error e
  | Except.ok st => Except.ok (finalizeIndex st)

/-! ### Persistence (`save_index` / `load_index`)

`pickle.dump`/`pickle.load` serialize the `data` dict value-faithfully;
they are modelled as the identity on its contents.  `dict(...)` on a
`defaultdict` and `defaultdict(..., d)` on a dict both preserve the
entries and their order. -/

/-- The `data` dict written by `save_index`. -/
structure SavedIndex where
  inverted_index : List (String × List (Nat × ℝ))
  term_document_counts : List (String × Nat)
  document_vectors : List (Nat × List (String × ℝ))
  documents : List Document

def save_index (st : Indexer) : SavedIndex :=
  ⟨st.inverted_index, st.term_document_counts, st.document_vectors, st.documents⟩

def load_index (data : SavedIndex) : Indexer :=
  ⟨data.inverted_index, data.term_document_counts, data.document_vectors, data.documents⟩

/-! ### Ranking (`doc_ranker.py`) -/

/-- `DocumentRanker.calculate_query_vector`: raw term counts on a fresh
`defaultdict(float)`, then every entry scaled by the IDF from the index. -/
noncomputable def calculate_query_vector (st : Indexer) (query_terms : List String) :
    List (String × ℝ) :=
  let query_vector := query_terms.foldl (atally (1 : ℝ)) []
  query_vector.map fun e => (e.1, e.2 * compute_inverse_document_frequency st e.1)

/-- `DocumentRanker.calculate_cosine_similarity`.  `common_terms` is a
Python set; it is enumerated here in the key order of the query vector,
which does not affect the sum. -/
noncomputable def calculate_cosine_similarity
    (query_vector document_vector : List (String × ℝ)) : ℝ :=
  let common_terms := (akeys query_vector).filter fun t => decide (t ∈ akeys document_vector)
  if common_terms.isEmpty then 0
  else
    let numerator :=
      (common_terms.map fun t => agetD query_vector t 0 * agetD document_vector t 0).sum
    let query_mag := Real.sqrt ((query_vector.map fun e => e.2 ^ 2).sum)
    let doc_mag := Real.sqrt ((document_vector.map fun e => e.2 ^ 2).sum)
    if query_mag = 0 ∨ doc_mag = 0 then 0 else numerator / (query_mag * doc_mag)

/-- The comparator of `sorted(..., key=lambda x: x[1], reverse=True)`:
`a` may precede `b` exactly when `a`'s score is at least `b`'s. -/
noncomputable def scoreDescLE (a b : ℕ × ℝ) : Bool := decide (b.2 ≤ a.2)

/-- `sorted(similarities, key=lambda x: x[1], reverse=True)`: a stable sort,
descending on the score alone (CPython's sort is stable also under
`reverse=True`). -/
noncomputable def pySortByScoreDesc (sims : List (Nat × ℝ)) : List (Nat × ℝ) :=
  sims.mergeSort scoreDescLE

def emptyDocument : Document := ⟨0, "", "", "", [], ""⟩

/-- `self.indexer.documents[doc_id]` (always in range for the states the
ranker is run on, so modelled with a junk default). -/
def docAt (st : Indexer) (doc_id : Nat) : Document := st.documents.getD doc_id emptyDocument

/-- `round(score, 4)`.  Python rounds ties to even; `round` rounds ties
away from zero — the two agree except at exact `5e-5` midpoints, which no
property here depends on. -/
noncomputable def round4 (x : ℝ) : ℝ := ((round (x * 10000) : ℤ) : ℝ) / 10000

/-- Python slice `l[:n]` for an arbitrary integer `n` (a negative `n`
drops the last `|n|` elements). -/
def pySliceTo {α : Type} (l : List α) (n : ℤ) : List α :=
  if 0 ≤ n then l.take n.toNat else l.take (l.length - (-n).toNat)

/-- The `similarities` list: one `(doc_id, score)` pair per entry of
`document_vectors`, in insertion order. -/
noncomputable def scoreList (st : Indexer) (query_vector : List (String × ℝ)) :
    List (Nat × ℝ) :=
  st.document_vectors.map fun e => (e.1, calculate_cosine_similarity query_vector e.2)

/-- The `ranked_docs` list of `rank_documents`. -/
noncomputable def rankedList (nlp : NLP) (st : Indexer) (query : String) : List (Nat × ℝ) :=
  pySortByScoreDesc (scoreList st (calculate_query_vector st (preprocess_text nlp query)))

/-- `DocumentRanker.rank_documents`: empty normalized query returns `[]`
immediately; otherwise score every document vector, stable-sort descending,
copy the document dicts with a rounded score, and apply the truthiness
test `if top_n:` before slicing. -/
noncomputable def rank_documents (nlp : NLP) (st : Indexer) (query : String)
    (top_n : Option ℤ) : List (Document × ℝ) :=
  if preprocess_text nlp query = [] then []
  else
    let results := (rankedList nlp st query).map fun e => (docAt st e.1, round4 e.2)
    match top_n with
    | none => results
    | some n => if n = 0 then results else pySliceTo results n

/-! ### State-threaded ranking

`rank_documents` only ever reads the indexer: the reads that could mutate
a Python `defaultdict` are made explicit here by threading the `Indexer`
value through every access, so that "the index is unchanged" is a theorem
about this definition rather than a typing accident. -/

/-- `dict.get(k, dflt)` as a state transformer: it never inserts. -/
def pyGet {α : Type} (m : List (String × α)) (k : String) (dflt : α) :
    α × List (String × α) :=
  (agetD m k dflt, m)

/-- `compute_inverse_document_frequency`, returning the possibly-updated
indexer (the `term_document_counts.get(term, 0)` read is the only access). -/
noncomputable def compute_idf_st (st : Indexer) (term : String) : ℝ × Indexer :=
  let g := pyGet st.term_document_counts term 0
  (Real.log (((st.documents.length : ℝ) + 1) / ((g.1 : ℝ) + 1)) + 1,
   ⟨st.inverted_index, g.2, st.document_vectors, st.documents⟩)

/-- `calculate_query_vector` threading the indexer through the IDF loop. -/
noncomputable def calculate_query_vector_st (st : Indexer) (query_terms : List String) :
    List (String × ℝ) × Indexer :=
  let query_vector := query_terms.foldl (atally (1 : ℝ)) []
  query_vector.foldl
    (fun acc e =>
      let r := compute_idf_st acc.2 e.1
      (acc.1 ++ [(e.1, e.2 * r.1)], r.2))
    ([], st)

/-- `rank_documents` threading the indexer through every read. -/
noncomputable def rank_documents_st (nlp : NLP) (st : Indexer) (query : String)
    (top_n : Option ℤ) : List (Document × ℝ) × Indexer :=
  if preprocess_text nlp query = [] then ([], st)
  else
    let q := calculate_query_vector_st st (preprocess_text nlp query)
    let similarities :=
      q.2.document_vectors.map fun e => (e.1, calculate_cosine_similarity q.1 e.2)
    let ranked_docs := pySortByScoreDesc similarities
    let results := ranked_docs.map fun e => (docAt q.2 e.1, round4 e.2)
    (match top_n with
     | none => results
     | some n => if n = 0 then results else pySliceTo results n,
     q.2)

/-! ### Fold lemmas for the dict-building loops -/

section FoldLemmas

variable {κ : Type} {α : Type} {β : Type} [DecidableEq κ]

theorem agetD_atally [AddMonoid α] (one : α) (m : List (κ × α)) (t k : κ) :
    agetD (atally one m t) k 0 = agetD m k 0 + if k = t then one else 0 := by
  unfold agetD
  rw [alookup_atally]
  by_cases h : k = t
  · rw [if_pos h, if_pos h]
    rcases ho : alookup m k with _ | v
    · rw [h] at ho; rw [ho]; simp
    · rw [h] at ho; rw [ho]; simp
  · rw [if_neg h, if_neg h]
    simp

theorem agetD_foldl_atally [AddMonoid α] (one : α) (l : List κ) (m : List (κ × α)) (k : κ) :
    agetD (l.foldl (atally one) m) k 0 = agetD m k 0 + l.count k • one := by
  induction l generalizing m with
  | nil => simp
  | cons t rest ih =>
      rw [List.foldl_cons, ih, agetD_atally, List.count_cons]
      by_cases h : k = t
      · simp only [h, beq_self_eq_true, if_pos, if_true]
        rw [succ_nsmul', add_assoc]
      · have hb : (k == t) = false := beq_eq_false_iff_ne.mpr h
        have ht : ¬ t = k := fun h1 => h h1.symm
        simp [h, hb, ht]

theorem akeys_foldl_atally_nodup [Add α] (one : α) (l : List κ) (m : List (κ × α))
    (h : (akeys m).Nodup) : (akeys (l.foldl (atally one) m)).Nodup := by
  induction l generalizing m with
  | nil => exact h
  | cons t rest ih => exact ih _ (akeys_atally_nodup _ _ _ h)

theorem mem_akeys_atally [Add α] (one : α) (m : List (κ × α)) (t k : κ) :
    k ∈ akeys (atally one m t) ↔ k ∈ akeys m ∨ k = t := by
  rw [akeys_atally]
  by_cases ht : t ∈ akeys m
  · rw [if_pos ht]
    constructor
    · exact Or.inl
    · rintro (h1 | h2)
      · exact h1
      · exact h2 ▸ ht
  · rw [if_neg ht]
    simp [List.mem_append]

theorem mem_akeys_foldl_atally [Add α] (one : α) (l : List κ) (m : List (κ × α)) (k : κ) :
    k ∈ akeys (l.foldl (atally one) m) ↔ k ∈ akeys m ∨ k ∈ l := by
  induction l generalizing m with
  | nil => simp
  | cons t rest ih =>
      rw [List.foldl_cons, ih, mem_akeys_atally, List.mem_cons]
      tauto

/-- Raw counts: the value stored under `t` after tallying a token list is
the number of occurrences of `t`. -/
theorem agetD_countTokens (tokens : List String) (t : String) :
    agetD (countTokens tokens) t 0 = tokens.count t := by
  rw [countTokens, agetD_foldl_atally]
  simp [agetD, smul_eq_mul]

theorem akeys_countTokens_nodup (tokens : List String) :
    (akeys (countTokens tokens)).Nodup :=
  akeys_foldl_atally_nodup _ _ _ (by simp)

theorem mem_akeys_countTokens (tokens : List String) (t : String) :
    t ∈ akeys (countTokens tokens) ↔ t ∈ tokens := by
  rw [countTokens, mem_akeys_foldl_atally]
  simp

theorem alookup_countTokens (tokens : List String) (t : String) :
    alookup (countTokens tokens) t =
      if t ∈ tokens then some (tokens.count t) else none := by
  by_cases h : t ∈ tokens
  · rw [if_pos h]
    have hs : (alookup (countTokens tokens) t).isSome := by
      rw [alookup_isSome_iff_mem_akeys, mem_akeys_countTokens]
      exact h
    obtain ⟨c, hc⟩ := Option.isSome_iff_exists.mp hs
    have hval := agetD_countTokens tokens t
    rw [agetD, hc] at hval
    simp only [Option.getD_some] at hval
    rw [hc, hval]
  · rw [if_neg h, alookup_eq_none_iff, mem_akeys_countTokens]
    exact h

theorem mem_countTokens {tokens : List String} {t : String} {c : ℕ}
    (h : (t, c) ∈ countTokens tokens) : c = tokens.count t ∧ t ∈ tokens := by
  have hl := alookup_eq_some_of_mem (akeys_countTokens_nodup tokens) h
  rw [alookup_countTokens] at hl
  by_cases ht : t ∈ tokens
  · rw [if_pos ht] at hl
    exact ⟨by injection hl with h1; exact h1.symm, ht⟩
  · rw [if_neg ht] at hl
    exact absurd hl (by simp)

theorem akeys_foldl_ddAppend_nodup (f : κ × ℕ → β) (tcs : List (κ × ℕ))
    (inv : List (κ × List β)) (h : (akeys inv).Nodup) :
    (akeys (tcs.foldl (fun m e => ddAppend m e.1 (f e)) inv)).Nodup := by
  induction tcs generalizing inv with
  | nil => exact h
  | cons e rest ih => exact ih _ (akeys_ddAppend_nodup _ _ _ h)

theorem mem_akeys_foldl_ddAppend (f : κ × ℕ → β) (tcs : List (κ × ℕ))
    (inv : List (κ × List β)) (k : κ) :
    k ∈ akeys (tcs.foldl (fun m e => ddAppend m e.1 (f e)) inv) ↔
      k ∈ akeys inv ∨ k ∈ akeys tcs := by
  induction tcs generalizing inv with
  | nil => simp
  | cons e rest ih =>
      rw [List.foldl_cons, ih, akeys_ddAppend]
      by_cases he : e.1 ∈ akeys inv
      · rw [if_pos he]
        simp only [akeys, List.map_cons, List.mem_cons]
        constructor
        · rintro (h1 | h2)
          · exact Or.inl h1
          · exact Or.inr (Or.inr h2)
        · rintro (h1 | h2 | h3)
          · exact Or.inl h1
          · exact Or.inl (h2 ▸ he)
          · exact Or.inr h3
      · rw [if_neg he]
        simp only [akeys, List.map_cons, List.mem_cons, List.mem_append,
          List.mem_singleton]
        tauto

/-- The effect of the posting-append loop on a single key, assuming the
per-document term counts have pairwise-distinct keys. -/
theorem alookup_foldl_ddAppend (f : κ × ℕ → β) (tcs : List (κ × ℕ))
    (inv : List (κ × List β)) (hnd : (akeys tcs).Nodup) (k : κ) :
    alookup (tcs.foldl (fun m e => ddAppend m e.1 (f e)) inv) k =
      match alookup tcs k with
      | some c => some ((alookup inv k).getD [] ++ [f (k, c)])
      | none => alookup inv k := by
  induction tcs generalizing inv with
  | nil => simp
  | cons e rest ih =>
      obtain ⟨k1, c1⟩ := e
      simp only [akeys, List.map_cons, List.nodup_cons] at hnd
      rw [List.foldl_cons]
      by_cases hk : k1 = k
      · subst hk
        have hrest : alookup rest k1 = none := by
          rw [alookup_eq_none_iff]
          exact fun hm => hnd.1 hm
        rw [ih _ hnd.2, hrest, alookup_cons]
        simp [alookup_ddAppend]
      · have hk1 : ¬ k = k1 := fun h => hk h.symm
        rw [ih _ hnd.2, alookup_cons, if_neg hk]
        simp only [alookup_ddAppend, if_neg hk1]

end FoldLemmas

/-! ### Characterization of the build loop (phase 1) -/

/-- The token sequence `build_index` derives from one record: the record is
well-formed exactly when every author dict has a `name`, and then the
combined `title + abstract + author names` text is normalized. -/
def recordTokens (nlp : NLP) (pub : RawRecord) : List String :=
  match authorNames (pub.authors.getD []) with
  | Except.ok names => preprocess_text nlp (combinedText pub names)
  | Except.error _ => []

/-- The provisional TF-only document vector of a record. -/
noncomputable def tfVecOf (nlp : NLP) (pub : RawRecord) : List (String × ℝ) :=
  (countTokens (recordTokens nlp pub)).map fun e => (e.1, 1 + Real.log (e.2 : ℝ))

/-- The TF-only postings contributed for term `t` by an enumerated record
list: one posting per record containing `t`, in enumeration order. -/
noncomputable def newPostings (nlp : NLP) (t : String) (l : List (ℕ × RawRecord)) :
    List (ℕ × ℝ) :=
  (l.filter fun e => decide (t ∈ recordTokens nlp e.2)).map
    fun e => (e.1, 1 + Real.log (((recordTokens nlp e.2).count t : ℕ) : ℝ))

/-- Appending freshly contributed postings to an optional existing posting
list (`none` meaning the term has no inverted-index entry yet). -/
def joinPostings (o : Option (List (ℕ × ℝ))) (qs : List (ℕ × ℝ)) :
    Option (List (ℕ × ℝ)) :=
  match o with
  | some ps => some (ps ++ qs)
  | none => if qs.isEmpty then none else some qs

@[simp] theorem joinPostings_nil (o : Option (List (ℕ × ℝ))) :
    joinPostings o [] = o := by
  rcases o with _ | ps <;> simp [joinPostings]

theorem joinPostings_step (o : Option (List (ℕ × ℝ))) (p : ℕ × ℝ)
    (qs : List (ℕ × ℝ)) :
    joinPostings o (p :: qs) = joinPostings (some (o.getD [] ++ [p])) qs := by
  rcases o with _ | ps <;> simp [joinPostings]

theorem newPostings_cons (nlp : NLP) (t : String) (e : ℕ × RawRecord)
    (l : List (ℕ × RawRecord)) :
    newPostings nlp t (e :: l) =
      if t ∈ recordTokens nlp e.2 then
        (e.1, 1 + Real.log (((recordTokens nlp e.2).count t : ℕ) : ℝ)) :: newPostings nlp t l
      else newPostings nlp t l := by
  rw [newPostings, List.filter_cons]
  by_cases hm : t ∈ recordTokens nlp e.2
  · rw [if_pos (by simpa using hm), if_pos hm, List.map_cons, ← newPostings]
  · rw [if_neg (by simpa using hm), if_neg hm, ← newPostings]

theorem tfLoop_foldl (doc_id : ℕ) (tcs : List (String × ℕ)) :
    ∀ (inv : List (String × List (ℕ × ℝ))) (acc : List (String × ℝ)),
      tcs.foldl
        (fun acc e =>
          (ddAppend acc.1 e.1 (doc_id, 1 + Real.log (e.2 : ℝ)),
           acc.2 ++ [(e.1, 1 + Real.log (e.2 : ℝ))])) (inv, acc) =
      (tcs.foldl (fun m e => ddAppend m e.1 (doc_id, 1 + Real.log (e.2 : ℝ))) inv,
       acc ++ tcs.map fun e => (e.1, 1 + Real.log (e.2 : ℝ))) := by
  induction tcs with
  | nil => simp
  | cons e rest ih =>
      intro inv acc
      rw [List.foldl_cons, List.foldl_cons, ih, List.map_cons]
      simp

theorem tfLoop_fst (doc_id : ℕ) (tcs : List (String × ℕ))
    (inv : List (String × List (ℕ × ℝ))) :
    (tfLoop doc_id tcs inv).1 =
      tcs.foldl (fun m e => ddAppend m e.1 (doc_id, 1 + Real.log (e.2 : ℝ))) inv := by
  rw [tfLoop, tfLoop_foldl]

theorem tfLoop_snd (doc_id : ℕ) (tcs : List (String × ℕ))
    (inv : List (String × List (ℕ × ℝ))) :
    (tfLoop doc_id tcs inv).2 = tcs.map fun e => (e.1, 1 + Real.log (e.2 : ℝ)) := by
  rw [tfLoop, tfLoop_foldl]
  simp

theorem indexRecord_eq_ok {nlp : NLP} {pub : RawRecord} {names : List String}
    (st : Indexer) (doc_id : ℕ)
    (h : authorNames (pub.authors.getD []) = Except.ok names) :
    indexRecord nlp st doc_id pub =
      Except.ok
        ⟨(tfLoop doc_id (countTokens (recordTokens nlp pub)) st.inverted_index).1,
         (recordTokens nlp pub).dedup.foldl (atally 1) st.term_document_counts,
         st.document_vectors ++
           [(doc_id, (tfLoop doc_id (countTokens (recordTokens nlp pub)) st.inverted_index).2)],
         st.documents ++ [docOfRecord doc_id pub]⟩ := by
  have ht : recordTokens nlp pub = preprocess_text nlp (combinedText pub names) := by
    rw [recordTokens, h]
  simp only [indexRecord, h, ht]

theorem indexRecord_eq_error {nlp : NLP} {pub : RawRecord} {msg : String}
    (st : Indexer) (doc_id : ℕ)
    (h : authorNames (pub.authors.getD []) = Except.error msg) :
    indexRecord nlp st doc_id pub = Except.error msg := by
  simp only [indexRecord, h]

/-- Loop invariant for phase 1 of `build_index`: the final state appends one
document and one TF vector per record, adds one to a term's document count
per record containing it, and appends one TF posting per record containing
it, preserving distinctness of the inverted-index keys. -/
theorem indexLoop_spec (nlp : NLP) :
    ∀ (rest : List RawRecord) (k : ℕ) (st st' : Indexer),
      indexLoop nlp (rest.enumFrom k) st = Except.ok st' →
      st'.documents = st.documents ++ (rest.enumFrom k).map (fun e => docOfRecord e.1 e.2) ∧
      st'.document_vectors =
        st.document_vectors ++ (rest.enumFrom k).map (fun e => (e.1, tfVecOf nlp e.2)) ∧
      (∀ t, agetD st'.term_document_counts t 0 =
          agetD st.term_document_counts t 0 +
            (rest.filter fun p => decide (t ∈ recordTokens nlp p)).length) ∧
      (∀ t, alookup st'.inverted_index t =
          joinPostings (alookup st.inverted_index t) (newPostings nlp t (rest.enumFrom k))) ∧
      ((akeys st.inverted_index).Nodup → (akeys st'.inverted_index).Nodup) := by
  intro rest
  induction rest with
  | nil =>
      intro k st st' h
      simp only [List.enumFrom_nil, indexLoop] at h
      obtain rfl : st = st' := by injection h
      simp [newPostings]
  | cons pub rest ih =>
      intro k st st' h
      simp only [List.enumFrom_cons, indexLoop] at h
      rcases hA : authorNames (pub.authors.getD []) with msg | names
      · rw [indexRecord_eq_error st k hA] at h
        exact absurd h (by simp)
      · rw [indexRecord_eq_ok st k hA] at h
        obtain ⟨h1, h2, h3, h4, h5⟩ := ih (k + 1) _ st' h
        refine ⟨?_, ?_, ?_, ?_, ?_⟩
        · rw [h1]
          simp [List.append_assoc]
        · rw [h2, tfLoop_snd]
          simp [tfVecOf, List.append_assoc]
        · intro t
          rw [h3 t]
          simp only [agetD_foldl_atally, smul_eq_mul, mul_one, List.count_dedup]
          rw [List.filter_cons]
          simp only [decide_eq_true_eq]
          by_cases hm : t ∈ recordTokens nlp pub
          · rw [if_pos hm, if_pos hm, List.length_cons]
            omega
          · rw [if_neg hm, if_neg hm]
            omega
        · intro t
          rw [h4 t, tfLoop_fst,
            alookup_foldl_ddAppend _ _ _ (akeys_countTokens_nodup _) t,
            alookup_countTokens, List.enumFrom_cons, newPostings_cons]
          by_cases hm : t ∈ recordTokens nlp pub
          · rw [if_pos hm, if_pos hm, joinPostings_step]
          · rw [if_neg hm, if_neg hm]
        · intro hnd
          exact h5 (by rw [tfLoop_fst]; exact akeys_foldl_ddAppend_nodup _ _ _ hnd)

theorem authorNames_isOk {as : List Author}
    (h : ∀ a ∈ as, a.name.isSome) : ∃ names, authorNames as = Except.ok names := by
  induction as with
  | nil => exact ⟨[], rfl⟩
  | cons a rest ih =>
      obtain ⟨n, hn⟩ := Option.isSome_iff_exists.mp (h a (List.mem_cons_self _ _))
      obtain ⟨ns, hns⟩ := ih fun a2 h2 => h a2 (List.mem_cons_of_mem _ h2)
      exact ⟨n :: ns, by rw [authorNames, hn, hns]⟩

/-- Phase 1 always succeeds when every author entry of every record has a
`name` field. -/
theorem indexLoop_isOk (nlp : NLP) :
    ∀ (rest : List RawRecord) (k : ℕ) (st : Indexer),
      (∀ pub ∈ rest, ∀ a ∈ pub.authors.getD [], a.name.isSome) →
      ∃ st', indexLoop nlp (rest.enumFrom k) st = Except.ok st' := by
  intro rest
  induction rest with
  | nil => intro k st _; exact ⟨st, rfl⟩
  | cons pub rest ih =>
      intro k st hok
      have hnames : ∀ a ∈ pub.authors.getD [], a.name.isSome :=
        hok pub (List.mem_cons_self _ _)
      obtain ⟨names, hA⟩ := authorNames_isOk hnames
      obtain ⟨st', hst'⟩ :=
        ih (k + 1) _ fun p hp => hok p (List.mem_cons_of_mem _ hp)
      refine ⟨st', ?_⟩
      simp only [List.enumFrom_cons, indexLoop, indexRecord_eq_ok st k hA]
      exact hst'

/-! ### Characterization of phase 2 (`finalizeIndex`) -/

theorem alookup_map_values {κ : Type} {α β : Type} [DecidableEq κ] (g : κ → α → β)
    (m : List (κ × α)) (k : κ) :
    alookup (m.map fun e => (e.1, g e.1 e.2)) k = (alookup m k).map (g k) := by
  induction m with
  | nil => simp
  | cons e rest ih =>
      by_cases h : e.1 = k
      · subst h
        simp [alookup_cons]
      · simp [alookup_cons, h, ih]

theorem akeys_map_values {κ : Type} {α β : Type} [DecidableEq κ] (g : κ → α → β)
    (m : List (κ × α)) :
    akeys (m.map fun e => (e.1, g e.1 e.2)) = akeys m := by
  simp [akeys, List.map_map]

/-- The inner loop of phase 2 over one posting list, as a pointwise map on
the document vectors (each posting's `doc_id` is touched at most once
because the posting ids are distinct). -/
theorem posting_fold_eq_map (F : List (String × ℝ) → List (String × ℝ))
    (ps : List (ℕ × ℝ)) (dvs : List (ℕ × List (String × ℝ)))
    (hnd : (ps.map Prod.fst).Nodup) :
    ps.foldl (fun dvs p => aupdate dvs p.1 F) dvs =
      dvs.map fun e => if e.1 ∈ ps.map Prod.fst then (e.1, F e.2) else e := by
  induction ps generalizing dvs with
  | nil => simp
  | cons p rest ih =>
      simp only [List.map_cons, List.nodup_cons] at hnd
      rw [List.foldl_cons, ih _ hnd.2, aupdate, List.map_map]
      apply List.map_congr_left
      intro e _
      simp only [Function.comp]
      by_cases hek : e.1 = p.1
      · rw [if_pos hek]
        rw [if_neg (by simpa [hek] using hnd.1), if_pos (by simp [hek])]
      · rw [if_neg hek]
        by_cases her : e.1 ∈ rest.map Prod.fst
        · rw [if_pos her, if_pos (by simp [her])]
        · rw [if_neg her, if_neg (by simp [hek, her])]

/-- Does some already-processed inverted-index entry carry term `t` with a
posting for document `d`? -/
def scaleHit (es : List (String × List (ℕ × ℝ))) (d : ℕ) (t : String) : Bool :=
  es.any fun e => decide (t = e.1) && decide (d ∈ e.2.map Prod.fst)

theorem scaleHit_nil (d : ℕ) (t : String) : scaleHit [] d t = false := rfl

theorem scaleHit_of_not_mem {es : List (String × List (ℕ × ℝ))} {t : String}
    (h : t ∉ akeys es) (d : ℕ) : scaleHit es d t = false := by
  rw [scaleHit, List.any_eq_false]
  intro e he
  have ht : ¬ t = e.1 := fun heq => h (heq ▸ List.mem_map.mpr ⟨e, he, rfl⟩)
  simp [ht]

/-- The whole phase-2 double loop as a pointwise map over the document
vectors, assuming distinct inverted-index keys and distinct posting ids. -/
theorem finalize_fold_eq_map (idf : String → ℝ) (es : List (String × List (ℕ × ℝ)))
    (dvs : List (ℕ × List (String × ℝ)))
    (hk : (akeys es).Nodup)
    (hp : ∀ e ∈ es, (e.2.map Prod.fst).Nodup) :
    es.foldl
      (fun dvs e =>
        e.2.foldl (fun dvs p => aupdate dvs p.1 fun v => aupdate v e.1 (· * idf e.1)) dvs)
      dvs =
    dvs.map fun dv =>
      (dv.1, dv.2.map fun q => if scaleHit es dv.1 q.1 then (q.1, q.2 * idf q.1) else q) := by
  induction es generalizing dvs with
  | nil => simp [scaleHit_nil]
  | cons e es ih =>
      simp only [akeys, List.map_cons, List.nodup_cons] at hk
      rw [List.foldl_cons,
        posting_fold_eq_map _ _ _ (hp e (List.mem_cons_self _ _)),
        ih _ hk.2 (fun e2 he2 => hp e2 (List.mem_cons_of_mem _ he2)),
        List.map_map]
      apply List.map_congr_left
      intro dv _
      simp only [Function.comp]
      split_ifs with hd
      · dsimp only
        refine Prod.ext rfl ?_
        rw [aupdate, List.map_map]
        apply List.map_congr_left
        intro q _
        simp only [Function.comp]
        by_cases hq : q.1 = e.1
        · have hmiss : scaleHit es dv.1 q.1 = false :=
            scaleHit_of_not_mem (by rw [hq]; exact hk.1) dv.1
          have hhit : scaleHit (e :: es) dv.1 q.1 = true := by
            rw [scaleHit, List.any_cons]
            simp [hq, hd]
          rw [if_pos hq]
          dsimp only
          rw [if_neg (by simp [hmiss]), if_pos (by simp [hhit]), hq]
        · have hsame : scaleHit (e :: es) dv.1 q.1 = scaleHit es dv.1 q.1 := by
            rw [scaleHit, scaleHit, List.any_cons]
            simp [hq]
          rw [if_neg hq, hsame]
      · refine Prod.ext rfl ?_
        apply List.map_congr_left
        intro q _
        have hsame : scaleHit (e :: es) dv.1 q.1 = scaleHit es dv.1 q.1 := by
          rw [scaleHit, scaleHit, List.any_cons]
          simp [hd]
        rw [hsame]

theorem joinPostings_none (qs : List (ℕ × ℝ)) :
    joinPostings none qs = if qs.isEmpty then none else some qs := rfl

theorem compute_idf_finalize (st : Indexer) (t : String) :
    compute_inverse_document_frequency (finalizeIndex st) t =
      compute_inverse_document_frequency st t := rfl

theorem newPostings_map_fst (nlp : NLP) (t : String) (l : List (ℕ × RawRecord)) :
    (newPostings nlp t l).map Prod.fst =
      (l.filter fun e => decide (t ∈ recordTokens nlp e.2)).map Prod.fst := by
  rw [newPostings, List.map_map]
  rfl

theorem newPostings_ids_nodup (nlp : NLP) (t : String) (pubs : List RawRecord) :
    ((newPostings nlp t pubs.enum).map Prod.fst).Nodup := by
  rw [newPostings_map_fst]
  exact List.Nodup.sublist ((List.filter_sublist _).map Prod.fst)
    (List.nodup_enum_map_fst pubs)

theorem build_index_unfold {nlp : NLP} {pubs : List RawRecord} {st : Indexer}
    (h : build_index nlp pubs = Except.ok st) :
    ∃ st1, indexLoop nlp pubs.enum initIndexer = Except.ok st1 ∧ st = finalizeIndex st1 := by
  rcases hL : indexLoop nlp pubs.enum initIndexer with msg | st1
  · rw [build_index, hL] at h
    exact absurd h (by simp)
  · rw [build_index, hL] at h
    injection h with h2
    exact ⟨st1, rfl, h2.symm⟩

/-- Master characterization of a successful `build_index` run: documents in
input order with positional ids; document counts equal to the number of
records containing the term; document vectors and posting lists carrying
exactly the weight `(1 + ln count) * idf` per contained term. -/
theorem build_index_spec {nlp : NLP} {pubs : List RawRecord} {st : Indexer}
    (h : build_index nlp pubs = Except.ok st) :
    st.documents = pubs.enum.map (fun e => docOfRecord e.1 e.2) ∧
    (∀ t, agetD st.term_document_counts t 0 =
        (pubs.filter fun p => decide (t ∈ recordTokens nlp p)).length) ∧
    st.document_vectors = pubs.enum.map (fun e =>
        (e.1, (countTokens (recordTokens nlp e.2)).map fun q =>
            (q.1, (1 + Real.log (q.2 : ℝ)) * compute_inverse_document_frequency st q.1))) ∧
    (∀ t, alookup st.inverted_index t =
        if (newPostings nlp t pubs.enum).isEmpty then none
        else some ((newPostings nlp t pubs.enum).map fun p =>
            (p.1, p.2 * compute_inverse_document_frequency st t))) ∧
    (akeys st.inverted_index).Nodup := by
  obtain ⟨st1, hL, rfl⟩ := build_index_unfold h
  obtain ⟨hdocs, hdvs, htdc, hinv, hnodup⟩ :=
    indexLoop_spec nlp pubs 0 initIndexer st1 hL
  have henum : List.enumFrom 0 pubs = pubs.enum := rfl
  rw [henum] at hdocs hdvs hinv
  simp only [initIndexer, List.nil_append] at hdocs hdvs
  simp only [initIndexer, agetD, alookup_nil, Option.getD_none, Nat.zero_add] at htdc
  simp only [initIndexer, alookup_nil, joinPostings_none] at hinv
  have hkeys1 : (akeys st1.inverted_index).Nodup := hnodup (by simp [initIndexer, akeys])
  have hp1 : ∀ e ∈ st1.inverted_index, (e.2.map Prod.fst).Nodup := by
    intro e he
    have hl := alookup_eq_some_of_mem hkeys1 he
    rw [hinv e.1] at hl
    by_cases hemp : (newPostings nlp e.1 pubs.enum).isEmpty
    · rw [if_pos hemp] at hl
      exact absurd hl (by simp)
    · rw [if_neg hemp] at hl
      injection hl with hl2
      exact hl2 ▸ newPostings_ids_nodup nlp e.1 pubs
  have hid : ∀ (i : ℕ) (pub : RawRecord), (i, pub) ∈ pubs.enum →
      ∀ t, t ∈ recordTokens nlp pub →
        i ∈ (newPostings nlp t pubs.enum).map Prod.fst := by
    intro i pub hee t ht
    rw [newPostings_map_fst]
    exact List.mem_map.mpr
      ⟨(i, pub), List.mem_filter.mpr ⟨hee, by simpa using ht⟩, rfl⟩
  have hcov : ∀ (i : ℕ) (pub : RawRecord), (i, pub) ∈ pubs.enum →
      ∀ t, t ∈ recordTokens nlp pub → scaleHit st1.inverted_index i t = true := by
    intro i pub hee t ht
    have hid2 := hid i pub hee t ht
    have hne : ¬ (newPostings nlp t pubs.enum).isEmpty := by
      intro hq
      rw [List.isEmpty_iff.mp hq] at hid2
      simp at hid2
    have hl : alookup st1.inverted_index t = some (newPostings nlp t pubs.enum) := by
      rw [hinv t, if_neg hne]
    rw [scaleHit, List.any_eq_true]
    refine ⟨(t, newPostings nlp t pubs.enum), mem_of_alookup_eq_some hl, ?_⟩
    simp [hid2]
  refine ⟨hdocs, ?_, ?_, ?_, ?_⟩
  · intro t
    exact htdc t
  · have hfold := finalize_fold_eq_map
      (fun t => compute_inverse_document_frequency st1 t)
      st1.inverted_index st1.document_vectors hkeys1 hp1
    refine Eq.trans hfold ?_
    rw [hdvs, List.map_map]
    apply List.map_congr_left
    intro ee hee
    simp only [Function.comp]
    refine Prod.ext rfl ?_
    rw [tfVecOf, List.map_map]
    apply List.map_congr_left
    intro q hq
    simp only [Function.comp]
    have hqmem : q.1 ∈ recordTokens nlp ee.2 := by
      rw [← mem_akeys_countTokens (recordTokens nlp ee.2) q.1]
      exact List.mem_map.mpr ⟨q, hq, rfl⟩
    rw [if_pos (hcov ee.1 ee.2 (by simpa using hee) q.1 hqmem)]
    rw [compute_idf_finalize]
  · intro t
    have hmap := alookup_map_values
      (fun k ps => ps.map fun p => (p.1, p.2 * compute_inverse_document_frequency st1 k))
      st1.inverted_index t
    refine Eq.trans hmap ?_
    rw [hinv t]
    by_cases hemp : (newPostings nlp t pubs.enum).isEmpty
    · rw [if_pos hemp, if_pos hemp]
      rfl
    · rw [if_neg hemp, if_neg hemp]
      rw [compute_idf_finalize]
      rfl
  · have hkeq := akeys_map_values
      (fun k ps => ps.map fun p => (p.1, p.2 * compute_inverse_document_frequency st1 k))
      st1.inverted_index
    exact hkeq ▸ hkeys1

/-! ### Bounds for cosine similarity and rounding -/

theorem agetD_nonneg {m : List (String × ℝ)} (hm : ∀ e ∈ m, 0 ≤ e.2) (t : String) :
    0 ≤ agetD m t 0 := by
  rw [agetD]
  rcases ho : alookup m t with _ | v
  · simp
  · simpa using hm (t, v) (mem_of_alookup_eq_some ho)

theorem agetD_self {m : List (String × ℝ)} (hnd : (akeys m).Nodup) {e : String × ℝ}
    (he : e ∈ m) : agetD m e.1 0 = e.2 := by
  have hl : alookup m e.1 = some e.2 := by
    apply alookup_eq_some_of_mem hnd
    rw [Prod.mk.eta]
    exact he
  rw [agetD, hl]
  rfl

/-- The values-squared sum of a dict with distinct keys, re-indexed by its
key set. -/
theorem sq_sum_eq_keys_sum {m : List (String × ℝ)} (hnd : (akeys m).Nodup) :
    (m.map fun e => e.2 ^ 2).sum =
      ∑ t ∈ (akeys m).toFinset, agetD m t 0 ^ 2 := by
  rw [List.sum_toFinset _ hnd, akeys, List.map_map]
  apply congrArg
  apply List.map_congr_left
  intro e he
  simp only [Function.comp]
  rw [agetD_self hnd he]

/-- Cosine similarity of vectors with nonnegative weights and distinct keys
lies in `[0, 1]`: the restricted dot product is bounded by the full
magnitudes via Cauchy-Schwarz. -/
theorem cosine_mem_unit {qv dv : List (String × ℝ)}
    (hq : ∀ e ∈ qv, 0 ≤ e.2) (hd : ∀ e ∈ dv, 0 ≤ e.2)
    (hqk : (akeys qv).Nodup) (hdk : (akeys dv).Nodup) :
    0 ≤ calculate_cosine_similarity qv dv ∧ calculate_cosine_similarity qv dv ≤ 1 := by
  rw [calculate_cosine_similarity]
  by_cases hemp : ((akeys qv).filter fun t => decide (t ∈ akeys dv)).isEmpty
  · rw [if_pos hemp]
    exact ⟨le_refl 0, zero_le_one⟩
  · rw [if_neg hemp]
    set common := (akeys qv).filter fun t => decide (t ∈ akeys dv) with hcommon
    set A := (qv.map fun e => e.2 ^ 2).sum with hA
    set B := (dv.map fun e => e.2 ^ 2).sum with hB
    have hA0 : 0 ≤ A := List.sum_nonneg (by
      intro x hx
      obtain ⟨e, _, rfl⟩ := List.mem_map.mp hx
      exact sq_nonneg _)
    have hB0 : 0 ≤ B := List.sum_nonneg (by
      intro x hx
      obtain ⟨e, _, rfl⟩ := List.mem_map.mp hx
      exact sq_nonneg _)
    have hnum0 : 0 ≤ (common.map fun t => agetD qv t 0 * agetD dv t 0).sum :=
      List.sum_nonneg (by
        intro x hx
        obtain ⟨t, _, rfl⟩ := List.mem_map.mp hx
        exact mul_nonneg (agetD_nonneg hq t) (agetD_nonneg hd t))
    by_cases hz : Real.sqrt A = 0 ∨ Real.sqrt B = 0
    · rw [if_pos hz]
      exact ⟨le_refl 0, zero_le_one⟩
    · rw [if_neg hz]
      push_neg at hz
      have hqm : 0 < Real.sqrt A :=
        lt_of_le_of_ne (Real.sqrt_nonneg A) (Ne.symm hz.1)
      have hdm : 0 < Real.sqrt B :=
        lt_of_le_of_ne (Real.sqrt_nonneg B) (Ne.symm hz.2)
      have hcnd : common.Nodup := List.Nodup.filter _ hqk
      have hnum_eq : (common.map fun t => agetD qv t 0 * agetD dv t 0).sum =
          ∑ t ∈ common.toFinset, agetD qv t 0 * agetD dv t 0 :=
        (List.sum_toFinset _ hcnd).symm
      have hsubQ : common.toFinset ⊆ (akeys qv).toFinset := by
        intro t ht
        rw [List.mem_toFinset] at ht ⊢
        exact List.mem_of_mem_filter ht
      have hsubD : common.toFinset ⊆ (akeys dv).toFinset := by
        intro t ht
        rw [List.mem_toFinset] at ht ⊢
        have := List.of_mem_filter ht
        simpa using this
      have hAk : ∑ t ∈ common.toFinset, agetD qv t 0 ^ 2 ≤ A := by
        rw [hA, sq_sum_eq_keys_sum hqk]
        exact Finset.sum_le_sum_of_subset_of_nonneg hsubQ
          (fun t _ _ => sq_nonneg _)
      have hBk : ∑ t ∈ common.toFinset, agetD dv t 0 ^ 2 ≤ B := by
        rw [hB, sq_sum_eq_keys_sum hdk]
        exact Finset.sum_le_sum_of_subset_of_nonneg hsubD
          (fun t _ _ => sq_nonneg _)
      have hcs := Finset.sum_mul_sq_le_sq_mul_sq common.toFinset
        (fun t => agetD qv t 0) (fun t => agetD dv t 0)
      have hsq : ((common.map fun t => agetD qv t 0 * agetD dv t 0).sum) ^ 2 ≤ A * B := by
        rw [hnum_eq]
        calc (∑ t ∈ common.toFinset, agetD qv t 0 * agetD dv t 0) ^ 2
            ≤ (∑ t ∈ common.toFinset, agetD qv t 0 ^ 2) *
                ∑ t ∈ common.toFinset, agetD dv t 0 ^ 2 := hcs
          _ ≤ A * B := by
              apply mul_le_mul hAk hBk (Finset.sum_nonneg fun t _ => sq_nonneg _) hA0
      have hnumle : (common.map fun t => agetD qv t 0 * agetD dv t 0).sum ≤
          Real.sqrt A * Real.sqrt B := by
        rw [← Real.sqrt_mul hA0]
        rw [Real.le_sqrt hnum0 (mul_nonneg hA0 hB0)]
        exact hsq
      constructor
      · exact div_nonneg hnum0 (le_of_lt (mul_pos hqm hdm))
      · rw [div_le_one (mul_pos hqm hdm)]
        exact hnumle

theorem round_mono_real {x y : ℝ} (h : x ≤ y) : round x ≤ round y := by
  rw [round_eq, round_eq]
  exact Int.floor_le_floor (by linarith)

theorem round4_zero : round4 0 = 0 := by
  simp [round4]

theorem round4_mem_unit {x : ℝ} (h0 : 0 ≤ x) (h1 : x ≤ 1) :
    0 ≤ round4 x ∧ round4 x ≤ 1 := by
  have hlo : (0 : ℤ) ≤ round (x * 10000) := by
    have := round_mono_real (by linarith : (0 : ℝ) ≤ x * 10000)
    rwa [round_zero] at this
  have hhi : round (x * 10000) ≤ (10000 : ℤ) := by
    have := round_mono_real (by linarith : x * 10000 ≤ (10000 : ℝ))
    rwa [show round ((10000 : ℝ)) = (10000 : ℤ) by
      rw [show ((10000 : ℝ)) = (((10000 : ℤ) : ℝ)) by norm_num, round_intCast]] at this
  constructor
  · apply div_nonneg _ (by norm_num)
    exact_mod_cast hlo
  · rw [round4, div_le_one (by norm_num)]
    exact_mod_cast hhi

/-! ### Order and stability properties of the descending sort -/

theorem scoreDescLE_trans : ∀ (a b c : ℕ × ℝ),
    scoreDescLE a b → scoreDescLE b c → scoreDescLE a c := by
  intro a b c hab hbc
  simp only [scoreDescLE, decide_eq_true_eq] at hab hbc ⊢
  exact le_trans hbc hab

theorem scoreDescLE_total : ∀ (a b : ℕ × ℝ), scoreDescLE a b || scoreDescLE b a := by
  intro a b
  rcases le_total a.2 b.2 with h | h <;> simp [scoreDescLE, h]

theorem pySort_perm (sims : List (ℕ × ℝ)) : List.Perm (pySortByScoreDesc sims) sims :=
  List.mergeSort_perm sims scoreDescLE

theorem pySort_length (sims : List (ℕ × ℝ)) :
    (pySortByScoreDesc sims).length = sims.length :=
  List.length_mergeSort sims

theorem pySort_sorted (sims : List (ℕ × ℝ)) :
    (pySortByScoreDesc sims).Pairwise fun a b => b.2 ≤ a.2 := by
  have h := List.sorted_mergeSort scoreDescLE_trans scoreDescLE_total sims
  exact h.imp fun hab => by simpa [scoreDescLE] using hab

/-- If the input is already sorted by the comparator (for instance when all
scores are equal), the stable sort returns it unchanged. -/
theorem pySort_of_sorted {sims : List (ℕ × ℝ)}
    (h : sims.Pairwise fun a b => b.2 ≤ a.2) : pySortByScoreDesc sims = sims :=
  List.mergeSort_of_sorted (h.imp fun hab => by simpa [scoreDescLE] using hab)

/-- Two positions of a list in order form a two-element sublist. -/
theorem pair_sublist_of_lt {α : Type} :
    ∀ (l : List α) (i j : ℕ) (hij : i < j) (hj : j < l.length),
      List.Sublist [l.get ⟨i, hij.trans hj⟩, l.get ⟨j, hj⟩] l := by
  intro l
  induction l with
  | nil =>
      intro i j hij hj
      simp at hj
  | cons a l ih =>
      intro i j hij hj
      match i, j, hij, hj with
      | 0, j + 1, _, hj =>
          refine List.Sublist.cons₂ a (List.singleton_sublist.mpr ?_)
          exact List.get_mem l j (by simpa using hj)
      | i + 1, j + 1, hij, hj =>
          exact List.Sublist.cons a (ih i j (by omega) (by simpa using hj))

/-- Stability with a tie-break: if the input carries strictly increasing
document ids, the stable descending sort is ordered by descending score
with ties in ascending id order. -/
theorem pySort_pairwise_ids (sims : List (ℕ × ℝ))
    (hids : sims.Pairwise fun a b => a.1 < b.1) :
    (pySortByScoreDesc sims).Pairwise
      fun a b => b.2 < a.2 ∨ (a.2 = b.2 ∧ a.1 < b.1) := by
  have hperm : List.Perm (pySortByScoreDesc sims) sims := pySort_perm sims
  have hsorted := pySort_sorted sims
  have hidnd : (sims.map Prod.fst).Nodup := by
    show (sims.map Prod.fst).Pairwise (· ≠ ·)
    rw [List.pairwise_map]
    exact hids.imp fun h => Nat.ne_of_lt h
  have hovnd : ((pySortByScoreDesc sims).map Prod.fst).Nodup :=
    ((hperm.map Prod.fst).nodup_iff).mpr hidnd
  have hmnd : (pySortByScoreDesc sims).Nodup := hovnd.of_map
  have hpne : (pySortByScoreDesc sims).Pairwise fun a b => a.1 ≠ b.1 :=
    (List.pairwise_map).mp hovnd
  rw [List.pairwise_iff_get]
  intro i j hij
  have hle : ((pySortByScoreDesc sims).get j).2 ≤ ((pySortByScoreDesc sims).get i).2 :=
    (List.pairwise_iff_get.mp hsorted) i j hij
  rcases lt_or_eq_of_le hle with hlt | heq
  · exact Or.inl hlt
  · refine Or.inr ⟨heq.symm, ?_⟩
    have hne : ((pySortByScoreDesc sims).get i).1 ≠ ((pySortByScoreDesc sims).get j).1 :=
      (List.pairwise_iff_get.mp hpne) i j hij
    rcases Nat.lt_or_ge ((pySortByScoreDesc sims).get i).1
        ((pySortByScoreDesc sims).get j).1 with hlt2 | hge
    · exact hlt2
    exfalso
    set x := (pySortByScoreDesc sims).get j with hx
    set y := (pySortByScoreDesc sims).get i with hy
    have hxy : x.1 < y.1 := lt_of_le_of_ne hge (Ne.symm hne)
    obtain ⟨px, hpx⟩ := List.mem_iff_get.mp (hperm.subset (List.get_mem _ _ j.2) : x ∈ sims)
    obtain ⟨py, hpy⟩ := List.mem_iff_get.mp (hperm.subset (List.get_mem _ _ i.2) : y ∈ sims)
    have hplt : px.1 < py.1 := by
      rcases Nat.lt_trichotomy px.1 py.1 with h1 | h1 | h1
      · exact h1
      · exfalso
        have : px = py := Fin.ext h1
        rw [this, hpy] at hpx
        rw [hpx] at hxy
        exact lt_irrefl _ hxy
      · exfalso
        have := (List.pairwise_iff_get.mp hids) py px (by
          exact Fin.mk_lt_mk.mpr h1)
        rw [hpx, hpy] at this
        omega
    have hpair : List.Sublist [x, y] sims := by
      have := pair_sublist_of_lt sims px.1 py.1 hplt py.2
      rw [show (⟨px.1, hplt.trans py.2⟩ : Fin sims.length) = px from Fin.ext rfl,
        show (⟨py.1, py.2⟩ : Fin sims.length) = py from Fin.ext rfl, hpx, hpy] at this
      exact this
    have hxyle : scoreDescLE x y := by
      simp only [scoreDescLE, decide_eq_true_eq]
      rw [← heq]
    have hsub : List.Sublist [x, y] (pySortByScoreDesc sims) :=
      List.pair_sublist_mergeSort scoreDescLE_trans scoreDescLE_total hxyle hpair
    rw [List.sublist_iff_exists_fin_orderEmbedding_get_eq] at hsub
    obtain ⟨f, hf⟩ := hsub
    have h0 := hf ⟨0, by simp⟩
    have h1 := hf ⟨1, by simp⟩
    have hflt : f ⟨0, by simp⟩ < f ⟨1, by simp⟩ :=
      f.strictMono (Fin.mk_lt_mk.mpr (by norm_num))
    have hj0 : f ⟨0, by simp⟩ = j := by
      apply (List.Nodup.get_inj_iff hmnd).mp
      rw [← h0]
      exact hx
    have hi1 : f ⟨1, by simp⟩ = i := by
      apply (List.Nodup.get_inj_iff hmnd).mp
      rw [← h1]
      exact hy
    rw [hj0, hi1] at hflt
    rw [Fin.lt_def] at hflt hij
    omega

/-! ### Concrete instances used by the witnesses -/

def splitChars : List Char → List Char → List (List Char)
  | [], cur => [cur.reverse]
  | c :: cs, cur =>
      if c = ' ' then cur.reverse :: splitChars cs [] else splitChars cs (c :: cur)

/-- A simple whitespace tokenizer standing in for NLTK's `word_tokenize`
in the concrete instances below. -/
def simpleTokenize (s : String) : List String :=
  ((splitChars s.toList []).filter fun cs => cs ≠ []).map fun cs => String.mk cs

/-- A concrete `NLP` instance: whitespace tokens, identity stemmer, no
stopwords. -/
def nlp0 : NLP := ⟨simpleTokenize, fun t => t, fun _ => false⟩

def recA : RawRecord := ⟨some "aa", none, none, none, none⟩
def recB : RawRecord := ⟨some "bb", none, none, none, none⟩

/-- A two-record corpus. -/
def pubs2 : List RawRecord := [recA, recB]

/-- A record whose single author dict lacks the `name` key. -/
def badRec : RawRecord := ⟨none, none, none, some [⟨none, none⟩], none⟩

def getOk (e : Except String Indexer) : Indexer :=
  match e with
  | Except.ok st => st
  | Except.error _ => initIndexer

/-- The index built from the two-record corpus. -/
noncomputable def st2 : Indexer := getOk (build_index nlp0 pubs2)

theorem build_pubs2_ok : build_index nlp0 pubs2 = Except.ok st2 := rfl

theorem preprocess_zzz : preprocess_text nlp0 "zzz" = ["zzz"] := by decide

theorem st2_doc_count : st2.documents.length = 2 := rfl

theorem st2_dv_count : st2.document_vectors.length = 2 := rfl

/-! ### Helper lemmas about ranking pipelines and built indexes -/

theorem rank_documents_empty_query {nlp : NLP} {st : Indexer} {query : String}
    (top_n : Option ℤ) (h : preprocess_text nlp query = []) :
    rank_documents nlp st query top_n = [] := by
  rw [rank_documents, if_pos h]

theorem rank_documents_none {nlp : NLP} {st : Indexer} {query : String}
    (h : preprocess_text nlp query ≠ []) :
    rank_documents nlp st query none =
      (rankedList nlp st query).map fun e => (docAt st e.1, round4 e.2) := by
  rw [rank_documents, if_neg h]

theorem rank_documents_some_zero (nlp : NLP) (st : Indexer) (query : String) :
    rank_documents nlp st query (some 0) = rank_documents nlp st query none := by
  by_cases h : preprocess_text nlp query = []
  · rw [rank_documents, if_pos h, rank_documents, if_pos h]
  · rw [rank_documents, if_neg h, rank_documents, if_neg h]
    simp

theorem rank_documents_some {nlp : NLP} {st : Indexer} {query : String} {n : ℤ}
    (hn : n ≠ 0) :
    rank_documents nlp st query (some n) =
      pySliceTo (rank_documents nlp st query none) n := by
  by_cases h : preprocess_text nlp query = []
  · rw [rank_documents, if_pos h, rank_documents, if_pos h]
    rw [pySliceTo]
    split_ifs <;> simp
  · rw [rank_documents, if_neg h, rank_documents, if_neg h]
    simp [hn]

theorem countP_enumFrom_snd {α : Type} (p : α → Bool) :
    ∀ (l : List α) (k : ℕ),
      ((l.enumFrom k).countP fun e => p e.2) = l.countP p := by
  intro l
  induction l with
  | nil => intro k; rfl
  | cons a l ih =>
      intro k
      rw [List.enumFrom_cons, List.countP_cons, List.countP_cons, ih]

theorem build_documents_length {nlp : NLP} {pubs : List RawRecord} {st : Indexer}
    (h : build_index nlp pubs = Except.ok st) :
    st.documents.length = pubs.length := by
  rw [(build_index_spec h).1, List.length_map, List.enum_length]

theorem build_dvs_ids {nlp : NLP} {pubs : List RawRecord} {st : Indexer}
    (h : build_index nlp pubs = Except.ok st) :
    st.document_vectors.map Prod.fst = List.range pubs.length := by
  rw [(build_index_spec h).2.2.1, List.map_map]
  have h1 : (Prod.fst ∘ fun e : ℕ × RawRecord =>
      ((e.1, (countTokens (recordTokens nlp e.2)).map fun q =>
        (q.1, (1 + Real.log (q.2 : ℝ)) *
          compute_inverse_document_frequency st q.1)) : ℕ × List (String × ℝ)))
      = Prod.fst := rfl
  rw [h1]
  have h2 : pubs.enum = pubs.enumFrom 0 := rfl
  rw [h2, List.enumFrom_map_fst, ← List.range_eq_range']

theorem build_dvs_pairwise_ids {nlp : NLP} {pubs : List RawRecord} {st : Indexer}
    (h : build_index nlp pubs = Except.ok st) :
    st.document_vectors.Pairwise fun a b => a.1 < b.1 := by
  have h1 : (st.document_vectors.map Prod.fst).Pairwise (· < ·) := by
    rw [build_dvs_ids h, List.range_eq_range']
    exact List.pairwise_lt_range' 0 pubs.length
  rw [List.pairwise_map] at h1
  exact h1

theorem build_idf_ge_one {nlp : NLP} {pubs : List RawRecord} {st : Indexer}
    (h : build_index nlp pubs = Except.ok st) (t : String) :
    1 ≤ compute_inverse_document_frequency st t := by
  have hdf : (agetD st.term_document_counts t 0 : ℕ) ≤ pubs.length := by
    rw [(build_index_spec h).2.1 t]
    exact List.length_filter_le _ _
  have hN : st.documents.length = pubs.length := build_documents_length h
  rw [compute_inverse_document_frequency]
  have hpos : (0 : ℝ) < (agetD st.term_document_counts t 0 : ℕ) + 1 := by positivity
  have h1 : (1 : ℝ) ≤ ((st.documents.length : ℝ) + 1) /
      (((agetD st.term_document_counts t 0 : ℕ) : ℝ) + 1) := by
    rw [le_div_iff hpos, one_mul, hN]
    have : ((agetD st.term_document_counts t 0 : ℕ) : ℝ) ≤ (pubs.length : ℝ) := by
      exact_mod_cast hdf
    linarith
  have h2 := Real.log_nonneg h1
  linarith

theorem foldl_atally_real_value {qts : List String} {e : String × ℝ}
    (he : e ∈ qts.foldl (atally (1 : ℝ)) []) : e.2 = (qts.count e.1 : ℕ) := by
  have hnd : (akeys (qts.foldl (atally (1 : ℝ)) [])).Nodup :=
    akeys_foldl_atally_nodup _ _ _ (by simp)
  have h1 := agetD_self hnd he
  have h2 := agetD_foldl_atally (1 : ℝ) qts [] e.1
  rw [h1] at h2
  simpa [agetD, nsmul_eq_mul] using h2

theorem cqv_keys_nodup (st : Indexer) (qts : List String) :
    (akeys (calculate_query_vector st qts)).Nodup := by
  rw [calculate_query_vector]
  rw [akeys_map_values fun k a => a * compute_inverse_document_frequency st k]
  exact akeys_foldl_atally_nodup _ _ _ (by simp)

theorem cqv_values_nonneg {nlp : NLP} {pubs : List RawRecord} {st : Indexer}
    (h : build_index nlp pubs = Except.ok st) (qts : List String) :
    ∀ e ∈ calculate_query_vector st qts, 0 ≤ e.2 := by
  intro e he
  rw [calculate_query_vector] at he
  obtain ⟨e0, he0, rfl⟩ := List.mem_map.mp he
  have hval := foldl_atally_real_value he0
  have hidf := build_idf_ge_one h e0.1
  have hc : (0 : ℝ) ≤ (qts.count e0.1 : ℕ) := by positivity
  simp only []
  rw [hval]
  exact mul_nonneg hc (le_trans zero_le_one hidf)

theorem build_dv_nodup_keys {nlp : NLP} {pubs : List RawRecord} {st : Indexer}
    (h : build_index nlp pubs = Except.ok st) :
    ∀ dv ∈ st.document_vectors, (akeys dv.2).Nodup := by
  intro dv hdv
  rw [(build_index_spec h).2.2.1] at hdv
  obtain ⟨ee, _, rfl⟩ := List.mem_map.mp hdv
  dsimp only
  rw [akeys_map_values fun k (a : ℕ) =>
    (1 + Real.log (a : ℝ)) * compute_inverse_document_frequency st k]
  exact akeys_countTokens_nodup _

theorem build_dv_values_ge_one {nlp : NLP} {pubs : List RawRecord} {st : Indexer}
    (h : build_index nlp pubs = Except.ok st) :
    ∀ dv ∈ st.document_vectors, ∀ q ∈ dv.2, 1 ≤ q.2 := by
  intro dv hdv q hq
  rw [(build_index_spec h).2.2.1] at hdv
  obtain ⟨ee, _, rfl⟩ := List.mem_map.mp hdv
  dsimp only at hq
  obtain ⟨q0, hq0, rfl⟩ := List.mem_map.mp hq
  obtain ⟨hc, hmem⟩ := mem_countTokens hq0
  have hc1 : 1 ≤ q0.2 := by
    rw [hc]
    exact List.count_pos_iff.mpr hmem
  have hlog : 0 ≤ Real.log (q0.2 : ℝ) := Real.log_nonneg (by exact_mod_cast hc1)
  have hidf := build_idf_ge_one h q0.1
  simp only []
  calc (1 : ℝ) = 1 * 1 := by norm_num
    _ ≤ (1 + Real.log (q0.2 : ℝ)) * compute_inverse_document_frequency st q0.1 := by
        apply mul_le_mul (by linarith) hidf zero_le_one (by linarith)

/-! ### The state-threaded ranker returns the state unchanged -/

theorem compute_idf_st_eq (st : Indexer) (t : String) :
    compute_idf_st st t = (compute_inverse_document_frequency st t, st) := rfl

theorem cqv_st_foldl (qv : List (String × ℝ)) :
    ∀ acc : List (String × ℝ) × Indexer,
      (qv.foldl (fun acc e =>
        let r := compute_idf_st acc.2 e.1
        (acc.1 ++ [(e.1, e.2 * r.1)], r.2)) acc) =
      (acc.1 ++ qv.map fun e =>
        (e.1, e.2 * compute_inverse_document_frequency acc.2 e.1), acc.2) := by
  induction qv with
  | nil => intro acc; simp
  | cons e rest ih =>
      intro acc
      rw [List.foldl_cons, ih]
      simp [compute_idf_st_eq]

theorem calculate_query_vector_st_eq (st : Indexer) (qts : List String) :
    calculate_query_vector_st st qts = (calculate_query_vector st qts, st) := by
  rw [calculate_query_vector_st, calculate_query_vector, cqv_st_foldl]
  simp

theorem rank_documents_st_eq (nlp : NLP) (st : Indexer) (query : String)
    (top_n : Option ℤ) :
    rank_documents_st nlp st query top_n = (rank_documents nlp st query top_n, st) := by
  by_cases h : preprocess_text nlp query = []
  · rw [rank_documents_st, rank_documents, if_pos h, if_pos h]
  · rw [rank_documents_st, rank_documents, if_neg h, if_neg h]
    rw [calculate_query_vector_st_eq]
    rfl

/-! ### The claims -/

/-- C8: `load_index (save_index st)` restores the indexer state exactly —
the inverted index, the term document counts, the document vectors and the
document list, order included — for every state, in particular every built
state and the empty-corpus state. -/
theorem C8_save_load_roundtrip (st : Indexer) : load_index (save_index st) = st := rfl

/-- C4: for every index state and `top_n`, a query whose normalization
yields no terms makes `rank_documents` return the empty list immediately,
without scoring any document. -/
theorem C4_empty_query (nlp : NLP) (st : Indexer) (query : String)
    (top_n : Option ℤ) (h : preprocess_text nlp query = []) :
    rank_documents nlp st query top_n = [] :=
  rank_documents_empty_query top_n h

theorem C4_empty_query_witness :
    preprocess_text nlp0 "" = [] ∧ rank_documents nlp0 st2 "" none = [] :=
  ⟨by decide, C4_empty_query nlp0 st2 "" none (by decide)⟩

/-- C6 counterexample: querying the freshly initialized, never-built
indexer does not fail with any `IndexNotReady` error — `rank_documents`
silently returns the empty list, which is exactly the answer of an index
built from the empty corpus (the two are indistinguishable). -/
theorem C6_counterexample :
    rank_documents nlp0 initIndexer "aa" none = [] ∧
      build_index nlp0 [] = Except.ok initIndexer := by
  refine ⟨?_, rfl⟩
  rw [rank_documents, if_neg (by decide)]
  simp [rankedList, scoreList, initIndexer, pySortByScoreDesc]

/-- C6 amended: querying before any successful build or load does not
fail: `rank_documents` on the initial state returns the empty list for
every query and `top_n`, indistinguishable from an empty built index. -/
theorem C6_amended_uninitialized_silent (nlp : NLP) (query : String)
    (top_n : Option ℤ) : rank_documents nlp initIndexer query top_n = [] := by
  by_cases h : preprocess_text nlp query = []
  · rw [rank_documents, if_pos h]
  · rw [rank_documents, if_neg h]
    rcases top_n with _ | n <;>
      simp [rankedList, scoreList, initIndexer, pySortByScoreDesc, pySliceTo]

/-- C9: ranking leaves the index state unchanged: the state-threaded
ranker returns exactly the input indexer (the only index access with
insert-on-miss potential goes through `get`-with-default, which never
inserts), together with the same results as the plain ranker. -/
theorem C9_rank_preserves_state (nlp : NLP) (st : Indexer) (query : String)
    (top_n : Option ℤ) :
    rank_documents_st nlp st query top_n = (rank_documents nlp st query top_n, st) :=
  rank_documents_st_eq nlp st query top_n

/-- C7 counterexample: build fails on an individual malformed record — a
record whose author entry lacks the `name` field raises `KeyError` even
though the whole input is a perfectly iterable sequence. -/
theorem C7_counterexample :
    build_index nlp0 [badRec] = Except.error "KeyError: name" := rfl

/-- C7 amended: a record missing `title`, `url`, `date`, `abstract` or
`authors` is defaulted and ids are 0-based positions, so build succeeds on
every input whose author entries all carry a `name` field; it does fail on
a record with an author entry lacking `name`. -/
theorem C7_amended_build_total (nlp : NLP) (pubs : List RawRecord)
    (h : ∀ pub ∈ pubs, ∀ a ∈ pub.authors.getD [], a.name.isSome) :
    ∃ st, build_index nlp pubs = Except.ok st ∧
      st.documents = pubs.enum.map fun e => docOfRecord e.1 e.2 := by
  obtain ⟨st1, hst1⟩ := indexLoop_isOk nlp pubs 0 initIndexer h
  have hst1' : indexLoop nlp pubs.enum initIndexer = Except.ok st1 := hst1
  have hB : build_index nlp pubs = Except.ok (finalizeIndex st1) := by
    rw [build_index, hst1']
  exact ⟨finalizeIndex st1, hB, (build_index_spec hB).1⟩

theorem C7_amended_build_total_witness :
    (∀ pub ∈ pubs2, ∀ a ∈ pub.authors.getD [], a.name.isSome) ∧
      ∃ st, build_index nlp0 pubs2 = Except.ok st ∧
        st.documents = pubs2.enum.map fun e => docOfRecord e.1 e.2 :=
  ⟨by decide, C7_amended_build_total nlp0 pubs2 (by decide)⟩

/-- C5 counterexample: with the two-document index, `top_n = -1` (which is
`≤ 0`) does not return the full two-element ranking: Python's
`results[:-1]` drops the last entry, returning a single result. -/
theorem C5_counterexample :
    st2.documents.length = 2 ∧
      (rank_documents nlp0 st2 "zzz" (some (-1))).length = 1 := by
  refine ⟨rfl, ?_⟩
  have hq : preprocess_text nlp0 "zzz" ≠ [] := by decide
  have hlen : (rank_documents nlp0 st2 "zzz" none).length = 2 := by
    rw [rank_documents_none hq, List.length_map, rankedList, pySort_length,
      scoreList, List.length_map, st2_dv_count]
  rw [rank_documents_some (by norm_num), pySliceTo, if_neg (by norm_num),
    List.length_take, hlen]
  decide

/-- C5 amended: an absent `top_n` and `top_n = 0` return the full ranking;
`top_n = n > 0` returns the first `min(n, N)` entries of the sorted
ranking; a negative `top_n` instead drops the last `min(|top_n|, N)`
entries (Python slice semantics), so `top_n ≤ 0` does not always return
the full ranking. -/
theorem C5_amended_top_n (nlp : NLP) (pubs : List RawRecord) (st : Indexer)
    (h : build_index nlp pubs = Except.ok st) (query : String) (n : ℤ) :
    (preprocess_text nlp query ≠ [] →
        (rank_documents nlp st query none).length = st.documents.length) ∧
    (rank_documents nlp st query (some 0) = rank_documents nlp st query none) ∧
    (n ≠ 0 → rank_documents nlp st query (some n) =
        if 0 ≤ n then (rank_documents nlp st query none).take n.toNat
        else (rank_documents nlp st query none).take
          ((rank_documents nlp st query none).length - (-n).toNat)) ∧
    (0 < n → preprocess_text nlp query ≠ [] →
        (rank_documents nlp st query (some n)).length =
          min n.toNat st.documents.length) := by
  have hfull : preprocess_text nlp query ≠ [] →
      (rank_documents nlp st query none).length = st.documents.length := by
    intro hq
    rw [rank_documents_none hq, List.length_map, rankedList, pySort_length,
      scoreList, List.length_map]
    rw [(build_index_spec h).2.2.1, List.length_map, List.enum_length,
      build_documents_length h]
  refine ⟨hfull, rank_documents_some_zero nlp st query, ?_, ?_⟩
  · intro hn
    rw [rank_documents_some hn, pySliceTo]
  · intro hn hq
    rw [rank_documents_some (by omega), pySliceTo, if_pos (by omega),
      List.length_take, hfull hq]

theorem C5_amended_top_n_witness :
    build_index nlp0 pubs2 = Except.ok st2 ∧
      ((preprocess_text nlp0 "zzz" ≠ [] →
          (rank_documents nlp0 st2 "zzz" none).length = st2.documents.length) ∧
      (rank_documents nlp0 st2 "zzz" (some 0) = rank_documents nlp0 st2 "zzz" none) ∧
      ((1 : ℤ) ≠ 0 → rank_documents nlp0 st2 "zzz" (some 1) =
          if 0 ≤ (1 : ℤ) then (rank_documents nlp0 st2 "zzz" none).take (1 : ℤ).toNat
          else (rank_documents nlp0 st2 "zzz" none).take
            ((rank_documents nlp0 st2 "zzz" none).length - (-(1 : ℤ)).toNat)) ∧
      (0 < (1 : ℤ) → preprocess_text nlp0 "zzz" ≠ [] →
          (rank_documents nlp0 st2 "zzz" (some 1)).length =
            min (1 : ℤ).toNat st2.documents.length)) :=
  ⟨rfl, C5_amended_top_n nlp0 pubs2 st2 rfl "zzz" 1⟩

/-- C2: in every built index the stored document count of every term
equals the number of (distinct-id) document-vector entries containing that
term, and the save/load round trip restores the same index. -/
theorem C2_term_document_counts (nlp : NLP) (pubs : List RawRecord) (st : Indexer)
    (h : build_index nlp pubs = Except.ok st) :
    (st.document_vectors.map Prod.fst).Nodup ∧
    (∀ t, agetD st.term_document_counts t 0 =
        (st.document_vectors.filter fun dv => decide (t ∈ akeys dv.2)).length) ∧
    load_index (save_index st) = st := by
  obtain ⟨hdocs, htdc, hdvs, hinv, hnd⟩ := build_index_spec h
  refine ⟨?_, ?_, rfl⟩
  · rw [build_dvs_ids h]
    exact List.nodup_range _
  · intro t
    rw [htdc t, hdvs]
    rw [← List.countP_eq_length_filter, ← List.countP_eq_length_filter,
      List.countP_map]
    have hcong := List.countP_congr (l := pubs.enum)
      (p := (fun dv : ℕ × List (String × ℝ) => decide (t ∈ akeys dv.2)) ∘
        fun e : ℕ × RawRecord =>
          ((e.1, (countTokens (recordTokens nlp e.2)).map fun q =>
            (q.1, (1 + Real.log (q.2 : ℝ)) *
              compute_inverse_document_frequency st q.1)) : ℕ × List (String × ℝ)))
      (q := fun e : ℕ × RawRecord => decide (t ∈ recordTokens nlp e.2))
    rw [hcong]
    · have he : pubs.enum = pubs.enumFrom 0 := rfl
      rw [he]
      exact (countP_enumFrom_snd (fun p => decide (t ∈ recordTokens nlp p)) pubs 0).symm
    · intro e _
      simp only [Function.comp, decide_eq_true_eq]
      rw [akeys_map_values fun k (a : ℕ) =>
        (1 + Real.log (a : ℝ)) * compute_inverse_document_frequency st k]
      exact mem_akeys_countTokens _ _

theorem C2_term_document_counts_witness :
    build_index nlp0 pubs2 = Except.ok st2 ∧
      ((st2.document_vectors.map Prod.fst).Nodup ∧
      (∀ t, agetD st2.term_document_counts t 0 =
          (st2.document_vectors.filter fun dv => decide (t ∈ akeys dv.2)).length) ∧
      load_index (save_index st2) = st2) :=
  ⟨rfl, C2_term_document_counts nlp0 pubs2 st2 rfl⟩

/-! ### Decomposition of built weights, and C1/C10 -/

def defaultRecord : RawRecord := ⟨none, none, none, none, none⟩

/-- Raw within-document count of term `t` in document `d` of the corpus. -/
def rawCount (nlp : NLP) (pubs : List RawRecord) (t : String) (d : ℕ) : ℕ :=
  (recordTokens nlp (pubs.getD d defaultRecord)).count t

theorem enum_mem_getD {pubs : List RawRecord} {ee : ℕ × RawRecord}
    (h : ee ∈ pubs.enum) : pubs.getD ee.1 defaultRecord = ee.2 := by
  have h2 : pubs[ee.1]? = some ee.2 := by
    rw [← List.mk_mem_enum_iff_getElem?]
    simpa using h
  rw [List.getD_eq_getElem?_getD, h2]
  rfl

theorem build_posting_decomp {nlp : NLP} {pubs : List RawRecord} {st : Indexer}
    (h : build_index nlp pubs = Except.ok st) :
    ∀ t ps, (t, ps) ∈ st.inverted_index → ∀ p ∈ ps,
      ∃ ee : ℕ × RawRecord, ee ∈ pubs.enum ∧ t ∈ recordTokens nlp ee.2 ∧
        p = (ee.1, (1 + Real.log (((recordTokens nlp ee.2).count t : ℕ) : ℝ)) *
          compute_inverse_document_frequency st t) := by
  obtain ⟨hdocs, htdc, hdvs, hinv, hnd⟩ := build_index_spec h
  intro t ps hps p hp
  have hl := alookup_eq_some_of_mem hnd hps
  rw [hinv t] at hl
  by_cases hemp : (newPostings nlp t pubs.enum).isEmpty
  · rw [if_pos hemp] at hl
    exact absurd hl (by simp)
  · rw [if_neg hemp] at hl
    injection hl with hl2
    rw [← hl2] at hp
    obtain ⟨p0, hp0, rfl⟩ := List.mem_map.mp hp
    rw [newPostings] at hp0
    obtain ⟨ee, hee, rfl⟩ := List.mem_map.mp hp0
    obtain ⟨heemem, heet⟩ := List.mem_filter.mp hee
    exact ⟨ee, heemem, by simpa using heet, rfl⟩

theorem build_dv_decomp {nlp : NLP} {pubs : List RawRecord} {st : Indexer}
    (h : build_index nlp pubs = Except.ok st) :
    ∀ dv ∈ st.document_vectors,
      ∃ ee : ℕ × RawRecord, ee ∈ pubs.enum ∧
        dv = (ee.1, (countTokens (recordTokens nlp ee.2)).map fun q =>
          (q.1, (1 + Real.log (q.2 : ℝ)) *
            compute_inverse_document_frequency st q.1)) := by
  intro dv hdv
  rw [(build_index_spec h).2.2.1] at hdv
  obtain ⟨ee, hee, rfl⟩ := List.mem_map.mp hdv
  exact ⟨ee, hee, rfl⟩

/-- C1: in every built index, every stored weight — posting-list and
document-vector alike — of term `t` in document `d` equals
`(1 + ln(rawCount t d)) * (ln((N + 1) / (df t + 1)) + 1)` with
`N` the document count and `df` the stored term document count, the raw
count being at least 1; terms with zero raw count are never stored. -/
theorem C1_stored_weights (nlp : NLP) (pubs : List RawRecord) (st : Indexer)
    (h : build_index nlp pubs = Except.ok st) :
    (∀ t ps, (t, ps) ∈ st.inverted_index → ∀ p ∈ ps,
        1 ≤ rawCount nlp pubs t p.1 ∧
        p.2 = (1 + Real.log ((rawCount nlp pubs t p.1 : ℕ) : ℝ)) *
          (Real.log (((st.documents.length : ℝ) + 1) /
            (((agetD st.term_document_counts t 0 : ℕ) : ℝ) + 1)) + 1)) ∧
    (∀ dv ∈ st.document_vectors, ∀ q ∈ dv.2,
        1 ≤ rawCount nlp pubs q.1 dv.1 ∧
        q.2 = (1 + Real.log ((rawCount nlp pubs q.1 dv.1 : ℕ) : ℝ)) *
          (Real.log (((st.documents.length : ℝ) + 1) /
            (((agetD st.term_document_counts q.1 0 : ℕ) : ℝ) + 1)) + 1)) ∧
    (∀ dv ∈ st.document_vectors, ∀ t, rawCount nlp pubs t dv.1 = 0 →
        t ∉ akeys dv.2) := by
  refine ⟨?_, ?_, ?_⟩
  · intro t ps hps p hp
    obtain ⟨ee, heemem, heet, rfl⟩ := build_posting_decomp h t ps hps p hp
    have hgd : pubs.getD ee.1 defaultRecord = ee.2 := enum_mem_getD heemem
    dsimp only
    rw [rawCount, hgd]
    exact ⟨List.count_pos_iff.mpr heet, rfl⟩
  · intro dv hdv q hq
    obtain ⟨ee, heemem, rfl⟩ := build_dv_decomp h dv hdv
    dsimp only at hq ⊢
    obtain ⟨q0, hq0, rfl⟩ := List.mem_map.mp hq
    obtain ⟨hc, hmem⟩ := mem_countTokens hq0
    have hgd : pubs.getD ee.1 defaultRecord = ee.2 := enum_mem_getD heemem
    dsimp only
    rw [rawCount, hgd]
    refine ⟨List.count_pos_iff.mpr hmem, ?_⟩
    rw [hc]
    rfl
  · intro dv hdv t hzero
    obtain ⟨ee, heemem, rfl⟩ := build_dv_decomp h dv hdv
    dsimp only
    intro hmem
    rw [akeys_map_values fun k (a : ℕ) =>
      (1 + Real.log (a : ℝ)) * compute_inverse_document_frequency st k] at hmem
    rw [mem_akeys_countTokens] at hmem
    rw [rawCount] at hzero
    rw [enum_mem_getD heemem] at hzero
    have := List.count_pos_iff.mpr hmem
    omega

theorem C1_stored_weights_witness :
    build_index nlp0 pubs2 = Except.ok st2 ∧
      ((∀ t ps, (t, ps) ∈ st2.inverted_index → ∀ p ∈ ps,
          1 ≤ rawCount nlp0 pubs2 t p.1 ∧
          p.2 = (1 + Real.log ((rawCount nlp0 pubs2 t p.1 : ℕ) : ℝ)) *
            (Real.log (((st2.documents.length : ℝ) + 1) /
              (((agetD st2.term_document_counts t 0 : ℕ) : ℝ) + 1)) + 1)) ∧
      (∀ dv ∈ st2.document_vectors, ∀ q ∈ dv.2,
          1 ≤ rawCount nlp0 pubs2 q.1 dv.1 ∧
          q.2 = (1 + Real.log ((rawCount nlp0 pubs2 q.1 dv.1 : ℕ) : ℝ)) *
            (Real.log (((st2.documents.length : ℝ) + 1) /
              (((agetD st2.term_document_counts q.1 0 : ℕ) : ℝ) + 1)) + 1)) ∧
      (∀ dv ∈ st2.document_vectors, ∀ t, rawCount nlp0 pubs2 t dv.1 = 0 →
          t ∉ akeys dv.2)) :=
  ⟨rfl, C1_stored_weights nlp0 pubs2 st2 rfl⟩

theorem build_post_values_ge_one {nlp : NLP} {pubs : List RawRecord} {st : Indexer}
    (h : build_index nlp pubs = Except.ok st) :
    ∀ t ps, (t, ps) ∈ st.inverted_index → ∀ p ∈ ps, 1 ≤ p.2 := by
  intro t ps hps p hp
  obtain ⟨ee, _, heet, rfl⟩ := build_posting_decomp h t ps hps p hp
  dsimp only
  have hc : 1 ≤ (recordTokens nlp ee.2).count t := List.count_pos_iff.mpr heet
  have hlog : 0 ≤ Real.log (((recordTokens nlp ee.2).count t : ℕ) : ℝ) :=
    Real.log_nonneg (by exact_mod_cast hc)
  have hidf := build_idf_ge_one h t
  calc (1 : ℝ) = 1 * 1 := by norm_num
    _ ≤ _ := mul_le_mul (by linarith) hidf zero_le_one (by linarith)

/-- Every score of a ranking result comes from the cosine score of some
document vector against the query vector, rounded to four decimals. -/
theorem rank_mem_score {nlp : NLP} {st : Indexer} {query : String}
    {top_n : Option ℤ} {r : Document × ℝ}
    (hr : r ∈ rank_documents nlp st query top_n) :
    ∃ e ∈ scoreList st (calculate_query_vector st (preprocess_text nlp query)),
      r.2 = round4 e.2 := by
  by_cases h : preprocess_text nlp query = []
  · rw [rank_documents_empty_query top_n h] at hr
    simp at hr
  · have hr2 : r ∈ rank_documents nlp st query none := by
      rcases top_n with _ | n
      · exact hr
      · by_cases hn : n = 0
        · rw [hn, rank_documents_some_zero] at hr
          exact hr
        · rw [rank_documents_some hn, pySliceTo] at hr
          split_ifs at hr <;> exact List.mem_of_mem_take hr
    rw [rank_documents_none h, rankedList] at hr2
    obtain ⟨e, he, rfl⟩ := List.mem_map.mp hr2
    exact ⟨e, (pySort_perm _).subset he, rfl⟩

/-- C10: in every built index every stored weight — posting and document
vector — is strictly positive (in fact at least 1, since both the
log-scaled TF and smoothed IDF are), and every score `rank_documents`
returns lies in the closed interval `[0, 1]`. -/
theorem C10_weights_pos_scores_unit (nlp : NLP) (pubs : List RawRecord)
    (st : Indexer) (h : build_index nlp pubs = Except.ok st) :
    (∀ t ps, (t, ps) ∈ st.inverted_index → ∀ p ∈ ps, 0 < p.2) ∧
    (∀ dv ∈ st.document_vectors, ∀ q ∈ dv.2, 0 < q.2) ∧
    (∀ query top_n, ∀ r ∈ rank_documents nlp st query top_n,
        0 ≤ r.2 ∧ r.2 ≤ 1) := by
  refine ⟨?_, ?_, ?_⟩
  · intro t ps hps p hp
    exact lt_of_lt_of_le one_pos (build_post_values_ge_one h t ps hps p hp)
  · intro dv hdv q hq
    exact lt_of_lt_of_le one_pos (build_dv_values_ge_one h dv hdv q hq)
  · intro query top_n r hr
    obtain ⟨e, he, hre⟩ := rank_mem_score hr
    rw [scoreList] at he
    obtain ⟨dv, hdv, rfl⟩ := List.mem_map.mp he
    dsimp only at hre
    have hcos := cosine_mem_unit
      (cqv_values_nonneg h (preprocess_text nlp query))
      (fun e2 he2 => le_trans zero_le_one (build_dv_values_ge_one h dv hdv e2 he2))
      (cqv_keys_nodup st (preprocess_text nlp query))
      (build_dv_nodup_keys h dv hdv)
    rw [hre]
    exact round4_mem_unit hcos.1 hcos.2

theorem C10_weights_pos_scores_unit_witness :
    build_index nlp0 pubs2 = Except.ok st2 ∧
      ((∀ t ps, (t, ps) ∈ st2.inverted_index → ∀ p ∈ ps, 0 < p.2) ∧
      (∀ dv ∈ st2.document_vectors, ∀ q ∈ dv.2, 0 < q.2) ∧
      (∀ query top_n, ∀ r ∈ rank_documents nlp0 st2 query top_n,
          0 ≤ r.2 ∧ r.2 ≤ 1)) :=
  ⟨rfl, C10_weights_pos_scores_unit nlp0 pubs2 st2 rfl⟩

theorem cosine_no_common {qv dv : List (String × ℝ)}
    (h : ∀ t ∈ akeys qv, t ∉ akeys dv) :
    calculate_cosine_similarity qv dv = 0 := by
  have hemp : ((akeys qv).filter fun t => decide (t ∈ akeys dv)).isEmpty := by
    rw [List.isEmpty_iff, List.filter_eq_nil_iff]
    intro t ht
    simp [h t ht]
  rw [calculate_cosine_similarity]
  simp [hemp]

/-- C3: for every built index and query, the ranking is the stable
descending sort of the cosine scores: strictly decreasing full-precision
score with ties broken by ascending document id, covering all document
ids; a non-empty normalized query sharing no term with any document vector
yields every document at score 0, in ascending id order. -/
theorem C3_rank_sorted (nlp : NLP) (pubs : List RawRecord) (st : Indexer)
    (h : build_index nlp pubs = Except.ok st) (query : String) :
    (preprocess_text nlp query ≠ [] →
        rank_documents nlp st query none =
          (rankedList nlp st query).map fun e => (docAt st e.1, round4 e.2)) ∧
    (rankedList nlp st query).Pairwise
      (fun a b => b.2 < a.2 ∨ (a.2 = b.2 ∧ a.1 < b.1)) ∧
    List.Perm ((rankedList nlp st query).map Prod.fst)
      (List.range st.documents.length) ∧
    ((∀ dv ∈ st.document_vectors,
        ∀ t ∈ akeys (calculate_query_vector st (preprocess_text nlp query)),
          t ∉ akeys dv.2) →
      preprocess_text nlp query ≠ [] →
      rank_documents nlp st query none =
        (List.range st.documents.length).map fun d => (docAt st d, 0)) := by
  have hN : st.documents.length = pubs.length := build_documents_length h
  have hids : (scoreList st
      (calculate_query_vector st (preprocess_text nlp query))).Pairwise
      fun a b => a.1 < b.1 := by
    rw [scoreList, List.pairwise_map]
    exact build_dvs_pairwise_ids h
  have hsl : (scoreList st
      (calculate_query_vector st (preprocess_text nlp query))).map Prod.fst =
      List.range st.documents.length := by
    rw [scoreList, List.map_map]
    have hc : (Prod.fst ∘ fun e : ℕ × List (String × ℝ) =>
        ((e.1, calculate_cosine_similarity
          (calculate_query_vector st (preprocess_text nlp query)) e.2) : ℕ × ℝ)) =
        Prod.fst := rfl
    rw [hc, build_dvs_ids h, hN]
  refine ⟨fun hq => rank_documents_none hq, ?_, ?_, ?_⟩
  · exact pySort_pairwise_ids _ hids
  · have hperm := (pySort_perm (scoreList st
      (calculate_query_vector st (preprocess_text nlp query)))).map Prod.fst
    rw [hsl] at hperm
    exact hperm
  · intro hno hq
    have hzero : scoreList st (calculate_query_vector st (preprocess_text nlp query))
        = st.document_vectors.map fun e => ((e.1, (0 : ℝ)) : ℕ × ℝ) := by
      rw [scoreList]
      apply List.map_congr_left
      intro dv hdv
      refine Prod.ext rfl ?_
      dsimp only
      exact cosine_no_common fun t ht => hno dv hdv t ht
    have hsorted0 : (scoreList st
        (calculate_query_vector st (preprocess_text nlp query))).Pairwise
        fun a b => b.2 ≤ a.2 := by
      rw [hzero, List.pairwise_map]
      exact (build_dvs_pairwise_ids h).imp fun _ => le_refl 0
    rw [rank_documents_none hq, rankedList, pySort_of_sorted hsorted0, hzero,
      List.map_map]
    have hcomp : ((fun e : ℕ × ℝ => (docAt st e.1, round4 e.2)) ∘
        fun e : ℕ × List (String × ℝ) => ((e.1, (0 : ℝ)) : ℕ × ℝ)) =
        fun e : ℕ × List (String × ℝ) => ((docAt st e.1, (0 : ℝ)) : Document × ℝ) := by
      funext e
      simp [Function.comp, round4_zero]
    rw [hcomp]
    have hsplit : st.document_vectors.map
        (fun e : ℕ × List (String × ℝ) => ((docAt st e.1, (0 : ℝ)) : Document × ℝ)) =
        (st.document_vectors.map Prod.fst).map
          fun d => ((docAt st d, (0 : ℝ)) : Document × ℝ) := by
      rw [List.map_map]
      rfl
    rw [hsplit, build_dvs_ids h, hN]

theorem C3_rank_sorted_witness :
    build_index nlp0 pubs2 = Except.ok st2 ∧
      ((preprocess_text nlp0 "zzz" ≠ [] →
          rank_documents nlp0 st2 "zzz" none =
            (rankedList nlp0 st2 "zzz").map fun e => (docAt st2 e.1, round4 e.2)) ∧
      (rankedList nlp0 st2 "zzz").Pairwise
        (fun a b => b.2 < a.2 ∨ (a.2 = b.2 ∧ a.1 < b.1)) ∧
      List.Perm ((rankedList nlp0 st2 "zzz").map Prod.fst)
        (List.range st2.documents.length) ∧
      ((∀ dv ∈ st2.document_vectors,
          ∀ t ∈ akeys (calculate_query_vector st2 (preprocess_text nlp0 "zzz")),
            t ∉ akeys dv.2) →
        preprocess_text nlp0 "zzz" ≠ [] →
        rank_documents nlp0 st2 "zzz" none =
          (List.range st2.documents.length).map fun d => (docAt st2 d, 0))) :=
  ⟨rfl, C3_rank_sorted nlp0 pubs2 st2 rfl "zzz"⟩

end VSE
